import Mathlib

set_option maxRecDepth 40000

/-!
Verification of the bill-attribution engine of this repository
(`post_label_bills.py` and `process_bills.py`).

Strings are modelled as `List Char` (`Str`).  Python regular expressions are
modelled by hand-written total functions that reproduce the behaviour of the
concrete patterns used by the scripts (leftmost, greedy with backtracking,
non-overlapping counting).  Several scanners use an explicit fuel argument so
that they are structurally recursive and hence evaluable by the kernel; in
each case the fuel is chosen so that it can never run out (every step consumes
at least one character of the scanned string).

`unicodedata.normalize("NFKC", s)` is modelled as the identity map.  The
identity is exact precisely on NFKC-fixed strings; every concrete string in
this development (precomposed Hangul syllables, ASCII, basic Greek letters)
is NFKC-fixed.  The two universally quantified statements about the text
pipeline whose truth depends on NFKC behaviour (the idempotence claim C5
and the keyword-extraction claim C10) are therefore restricted by an
explicit `nfkcStable` hypothesis to strings of characters on which NFKC is
provably the identity and no two of which canonically compose — outside
that domain the program folds compatibility characters (e.g. full-width
`Ａ` to `A`) and recomposes conjoining jamo (`ᄀ` + `ᅡ` to `가`), which the
identity model does not reproduce.

Confidences are modelled as rationals.  All confidence values produced by the
code (0, 0.4, 0.45, 0.5, 0.6, 0.7, 0.9) are exactly representable with two
decimal digits, Python float comparisons on them agree with the rational
order, and `round(c, 2)` is the identity on them, so `round2` below is the
identity.
-/

/-- Strings as lists of characters. -/
abbrev Str := List Char

/-- The set matched by Python's `\s` (and stripped by `str.strip()`) for
`str` patterns: Unicode whitespace. -/
def pySpace (c : Char) : Bool :=
  c = ' ' || c = '\t' || c = '\n' || c = '\x0b' || c = '\x0c' || c = '\r' ||
  c = '\x1c' || c = '\x1d' || c = '\x1e' || c = '\x1f' ||
  c = '\u0085' || c = '\u00a0' || c = '\u1680' ||
  ('\u2000' ≤ c && c ≤ '\u200a') ||
  c = '\u2028' || c = '\u2029' || c = '\u202f' || c = '\u205f' || c = '\u3000'

def pyDigit (c : Char) : Bool := '0' ≤ c && c ≤ '9'

/-- `unicodedata.normalize("NFKC", s)` (`normalize_text` in
`post_label_bills.py`, minus the falsy short-circuit which is irrelevant for
the identity map).  Modelled as the identity, which is exact precisely on
NFKC-fixed strings; see the file comment and `nfkcStable` below for how the
statements that depend on this are scoped. -/
def normalize_text (s : Str) : Str := s

/-- A conservative whitelist of characters on which Unicode NFKC is the
identity and no two of which participate in a canonical composition: the
ASCII controls TAB–CR, printable ASCII, precomposed Hangul syllables
(U+AC00–U+D7A3), and the basic Greek letter blocks.  None of these
characters has a compatibility or canonical decomposition, and every
canonical composition pair has a combining mark or a conjoining jamo
vowel/trailing consonant as its second element — all excluded — so a string
made of `nfkcStable` characters is NFKC-fixed and `normalize_text`
(modelled as the identity) is exact on it.  Conjoining jamo (which NFKC
composes into syllables) and compatibility characters such as full-width
letters (which NFKC folds into ASCII) are deliberately excluded. -/
def nfkcStable (c : Char) : Bool :=
  ('\t' ≤ c && c ≤ '\r') || (' ' ≤ c && c ≤ '~') || ('가' ≤ c && c ≤ '힣') ||
  ('Α' ≤ c && c ≤ 'Ω') || ('α' ≤ c && c ≤ 'ω')

/-- One pass of `re.sub(r"\s+", " ", s)`: every maximal run of whitespace is
replaced by a single space.  The flag records whether the previous character
was part of a whitespace run. -/
def collapseGo : Bool → Str → Str
  | _, [] => []
  | prev, c :: rest =>
    if pySpace c then
      if prev then collapseGo true rest else ' ' :: collapseGo true rest
    else c :: collapseGo false rest

/-- Remove a trailing whitespace run (the right half of `str.strip()`). -/
def dropTrailWS : Str → Str
  | [] => []
  | c :: rest =>
    let r := dropTrailWS rest
    if r = [] && pySpace c then [] else c :: r

/-- `str.strip()`. -/
def stripWS (s : Str) : Str := dropTrailWS (s.dropWhile pySpace)

/-- `clean_spaces` of `post_label_bills.py`:
`re.sub(r"\s+", " ", s).strip()`. -/
def clean_spaces (s : Str) : Str := stripWS (collapseGo false s)

/-- `s.replace("\n", " ")` (a one-character pattern, hence a character map). -/
def nlToSpace (s : Str) : Str := s.map (fun c => if c = '\n' then ' ' else c)

/-- `RE_PREFIX_NUM.sub("", s)` for `RE_PREFIX_NUM = ^\s*\d+\s*[.\)]\s*`.
The pattern is anchored, so at most the single leftmost match is removed; all
quantifiers take their maximal munch (the character classes of adjacent
pattern pieces are disjoint, so greedy matching never backtracks here). -/
def stripEnumHead (s : Str) : Str :=
  let t1 := s.dropWhile pySpace
  let ds := t1.takeWhile pyDigit
  let t2 := t1.dropWhile pyDigit
  if ds = [] then s
  else
    match t2.dropWhile pySpace with
    | '.' :: r => r.dropWhile pySpace
    | ')' :: r => r.dropWhile pySpace
    | _ => s

/-- Characters allowed inside a `RE_PARENS` group body (`[^()]`). -/
def parenFree (c : Char) : Bool := !(c = '(' || c = ')')

/-- Scanner for `RE_PARENS.sub("", s)` with `RE_PARENS = \([^()]*\)`:
removes every non-overlapping, non-nested parenthesised group, scanning left
to right and continuing after each removed group (a single `re.sub` pass).
The fuel is the length of the string; every step consumes at least one
character, so the fuel never runs out when started at `s.length`. -/
def parenScan : Nat → Str → Str
  | 0, s => s
  | _ + 1, [] => []
  | f + 1, c :: rest =>
    if c = '(' then
      match rest.dropWhile parenFree with
      | ')' :: tail => parenScan f tail
      | _ => '(' :: parenScan f rest
    else c :: parenScan f rest

/-- `RE_PARENS.sub("", s)`. -/
def dropParens (s : Str) : Str := parenScan s.length s

/-- The character class of `RE_DANGLING_MARKS = [·•\-–—]+`. -/
def isDangle (c : Char) : Bool :=
  c = '·' || c = '•' || c = '-' || c = '–' || c = '—'

/-- Scanner for `RE_DANGLING_MARKS.sub(" ", s)`: each maximal run of
connector marks becomes a single space. -/
def dangGo : Bool → Str → Str
  | _, [] => []
  | prev, c :: rest =>
    if isDangle c then
      if prev then dangGo true rest else ' ' :: dangGo true rest
    else c :: dangGo false rest

/-- `RE_DANGLING_MARKS.sub(" ", s)`. -/
def danglingToSpace (s : Str) : Str := dangGo false s

/-- `a` is a prefix of `b` (character-exact, used for `str.replace` and the
Python `in` substring test). -/
def leadEq : Str → Str → Bool
  | [], _ => true
  | _ :: _, [] => false
  | a :: as, b :: bs => a = b && leadEq as bs

/-- Scanner for `s.replace(pat, "")` with a non-empty `pat`: removes all
non-overlapping occurrences left to right, continuing after each removed
occurrence.  Fuel as in `parenScan`: a removal consumes `pat.length ≥ 1`
characters, a non-match consumes one. -/
def replGo (pat : Str) : Nat → Str → Str
  | 0, s => s
  | _ + 1, [] => []
  | f + 1, c :: rest =>
    if leadEq pat (c :: rest) then replGo pat f (List.drop pat.length (c :: rest))
    else c :: replGo pat f rest

/-- `s.replace(pat, "")`.  The scripts only ever call this with a non-empty
pattern; for an empty pattern we return `s` (the case is unreachable). -/
def replaceAll (pat : Str) (s : Str) : Str :=
  if pat = [] then s else replGo pat s.length s

/-- `STOP_PHRASES` of `post_label_bills.py`, in source order (the order
matters: phrases are removed one after the other). -/
def STOP_PHRASES : List Str :=
  (["일부개정법률안", "법률안", "대안", "정부 제출", "의원 대표발의", "대표발의",
    "위원장 제출", "의안번호", "정부제출", "제출", "소위자료", "안건"]).map String.data

/-- The stop-phrase removal loop of `normalize_bill_title`. -/
def stopStrip (s : Str) : Str :=
  STOP_PHRASES.foldl (fun acc sp => replaceAll sp acc) s

/-- `normalize_bill_title` of `post_label_bills.py`. -/
def normalize_bill_title (raw : Str) : Str :=
  if raw = [] then []
  else
    clean_spaces (stopStrip (clean_spaces (danglingToSpace (dropParens
      (stripEnumHead (nlToSpace (normalize_text raw)))))))

/-- The character class of the keyword tokenizer of
`extract_keywords_from_bill`: `[가-힣A-Za-z0-9]` (Hangul syllables, ASCII
letters, ASCII digits). -/
def alnumKo (c : Char) : Bool :=
  ('가' ≤ c && c ≤ '힣') || ('A' ≤ c && c ≤ 'Z') || ('a' ≤ c && c ≤ 'z') ||
  ('0' ≤ c && c ≤ '9')

/-- `re.findall(r"[X]+", s)` for a character class `p`: the maximal runs of
characters satisfying `p`, in order.  `cur` is the current run, reversed. -/
def tokGo (p : Char → Bool) : Str → Str → List Str
  | cur, [] => if cur = [] then [] else [cur.reverse]
  | cur, c :: rest =>
    if p c then tokGo p (c :: cur) rest
    else if cur = [] then tokGo p [] rest
    else cur.reverse :: tokGo p [] rest

/-- `BILL_STOP_TOKENS` of `post_label_bills.py` (a Python `set`; only
membership is ever used). -/
def BILL_STOP_TOKENS : List Str :=
  (["일부개정", "개정", "법률", "법", "대책", "에", "관한", "및", "의", "등", "관련", "사항",
    "제정", "일괄", "추진", "보고", "자료", "소위", "위원회", "위원", "정부", "제출", "위원장",
    "대표발의", "대안", "의안", "번호", "검토", "안", "개요", "기타"]).map String.data

/-- The token stream of `extract_keywords_from_bill`: alphanumeric runs of
the NFKC-normalised title, minus one-character tokens and stop tokens. -/
def keptTokens (title : Str) : List Str :=
  (tokGo alnumKo [] (normalize_text title)).filter
    (fun tok => decide (1 < tok.length) && decide (tok ∉ BILL_STOP_TOKENS))

/-- First-occurrence deduplication (the key order of a Python `Counter`,
which preserves first-insertion order). -/
def uniqAux : List Str → List Str → List Str
  | _, [] => []
  | seen, t :: rest =>
    if t ∈ seen then uniqAux seen rest else t :: uniqAux (seen ++ [t]) rest

/-- The distinct tokens of `l` in first-occurrence order. -/
def uniqFirst (l : List Str) : List Str := uniqAux [] l

/-- Number of occurrences of `t` in `l` (`Counter` multiplicity). -/
def countOf (l : List Str) (t : Str) : Nat :=
  (l.filter (fun x => decide (x = t))).length

/-- Insert `x` into a count-descending list, in front of the first element
whose count does not exceed `x`'s.  Used below in such a way that `x`
precedes all elements already in the list in first-occurrence order, which
makes the resulting sort stable. -/
def insByCount {α : Type} (cnt : α → Nat) (x : α) : List α → List α
  | [] => [x]
  | y :: ys => if cnt y ≤ cnt x then x :: y :: ys else y :: insByCount cnt x ys

/-- Stable sort by descending count (`Counter.most_common` sorts by count,
descending, and is stable, i.e. ties keep first-insertion order; `foldr`
inserts earlier elements last, so each element is placed in front of all
equal-count elements that follow it in the original order). -/
def sortByCountDesc {α : Type} (cnt : α → Nat) (l : List α) : List α :=
  l.foldr (insByCount cnt) []

/-- `extract_keywords_from_bill` of `post_label_bills.py`:
tokenise, drop one-character and stop tokens, return the `topk` most
frequent tokens (`Counter(kept).most_common(topk)`). -/
def extract_keywords_from_bill (title : Str) (topk : Nat) : List Str :=
  let kept := keptTokens title
  (sortByCountDesc (countOf kept) (uniqFirst kept)).take topk

/-- Case-insensitive character comparison (`re.IGNORECASE`).  Python
lowercases beyond ASCII, but no non-ASCII cased letters occur in the bill
patterns (Hangul has no case). -/
def ieqChar (a b : Char) : Bool := a.toLower = b.toLower

/-- Matcher for `spaced_pat(w)` = the characters of `w` joined by `\s*`,
compiled with `IGNORECASE|DOTALL`: try to match at the very start of the
text, returning the remainder after the match chosen by the regex engine
(each `\s*` is greedy, trying the longest whitespace gap first and
backtracking on failure of the rest of the pattern; `j = 0` in the
`findSome?` is the full gap `k`).  The fuel is the pattern length; the
pattern shrinks by exactly one character per step, so fuel `w.length` (≥ 1
for the patterns ever built) never runs out. -/
def matchRemF : Nat → Str → Str → Option Str
  | 0, _, _ => none
  | _ + 1, [], t => some t
  | _ + 1, [c], t =>
    match t with
    | [] => none
    | x :: xs => if ieqChar x c then some xs else none
  | f + 1, c :: c2 :: cs, t =>
    match t with
    | [] => none
    | x :: xs =>
      if ieqChar x c then
        let k := (xs.takeWhile pySpace).length
        (List.range (k + 1)).findSome? (fun j => matchRemF f (c2 :: cs) (xs.drop (k - j)))
      else none

/-- The scan of `pat.finditer(T)` for a non-empty word pattern: try a match
at each position, and after a match continue after its end
(non-overlapping).  Each step consumes at least one character (a match of a
non-empty pattern consumes its first character), so fuel `t.length + 1`
never runs out. -/
def scanCountF (w : Str) : Nat → Str → Nat
  | 0, _ => 0
  | _ + 1, [] => 0
  | f + 1, c :: rest =>
    match matchRemF w.length w (c :: rest) with
    | some r => 1 + scanCountF w f r
    | none => scanCountF w f rest

/-- `len(list(spaced_pat(w).finditer(t)))`.  For the empty word the compiled
pattern is empty and matches once at every position (`t.length + 1`
zero-width matches); the scripts never build such a pattern. -/
def countMatches (w t : Str) : Nat :=
  if w = [] then t.length + 1 else scanCountF w (t.length + 1) t

/-- `split_raw_bills_field` of `post_label_bills.py`:
`re.split(r"[\n;]+", normalize_text(bills))`, each piece cleaned, empty
pieces dropped.  Splitting on runs of separators and keeping only non-empty
cleaned pieces is exactly the `re.split` + comprehension of the source. -/
def split_raw_bills_field (bills : Str) : List Str :=
  if bills = [] then []
  else
    ((tokGo (fun c => !(c = Char.ofNat 10 || c = ';')) [] (normalize_text bills)).map
      clean_spaces).filter (fun piece => decide (piece ≠ []))

/-- One entry of `bill_map`: `{raw_variants, keywords, patterns}`.  A
pattern is represented by the word it was compiled from (`spaced_pat(w)` is
determined by `w`; matching is `countMatches`).  `raw_variants` is a Python
`set`, modelled as a first-insertion-ordered duplicate-free list; only
membership is relied upon. -/
structure Bill where
  raw_variants : List Str
  keywords : List Str
  patterns : List Str
deriving DecidableEq

/-- `bill_map` (a Python dict: association list in insertion order, keys
duplicate-free by construction). -/
abbrev BillMap := List (Str × Bill)

/-- `bill_map[c]` (the callers only look up keys known to be present; a
missing key yields a junk entry, unreachable from the scripts' call sites). -/
def lookupBill (bm : BillMap) (c : Str) : Bill :=
  ((bm.find? (fun p => decide (p.1 = c))).map Prod.snd).getD ⟨[], [], []⟩

/-- `c in bill_map`. -/
def memBill (bm : BillMap) (c : Str) : Bool :=
  bm.any (fun p => decide (p.1 = c))

/-- One transcript record, with the three fields read by
`post_label_bills.py` (`rec.get(...)` may be missing/null: `Option`). -/
structure Speech where
  speech_text : Option Str
  bills : Option Str
  member_name : Option Str
deriving DecidableEq

/-- The accumulation loop of `collect_bills_and_keywords` building
`canonical_set`: canonical title → set of raw variants, in first-insertion
order. -/
def addVariant (acc : List (Str × List Str)) (canon raw : Str) : List (Str × List Str) :=
  if acc.any (fun p => decide (p.1 = canon)) then
    acc.map (fun p => if p.1 = canon then (p.1, if raw ∈ p.2 then p.2 else p.2 ++ [raw]) else p)
  else acc ++ [(canon, [raw])]

/-- `canonical_set` of `collect_bills_and_keywords`: normalise every raw
mention, drop the ones that normalise to the empty string, group the rest. -/
def collectCanon (variants : List Str) : List (Str × List Str) :=
  variants.foldl
    (fun acc raw =>
      let canon := normalize_bill_title raw
      if canon = [] then acc else addVariant acc canon raw)
    []

/-- Build one `bill_map` entry: keywords = top 8, patterns =
`build_keyword_patterns([canon] + kws)` (which drops empty words). -/
def mkBill (canon : Str) (vars : List Str) : Bill :=
  let kws := extract_keywords_from_bill canon 8
  { raw_variants := vars, keywords := kws,
    patterns := (canon :: kws).filter (fun w => decide (w ≠ [])) }

/-- `collect_bills_and_keywords` of `post_label_bills.py`, returning the
`bill_map` (the parallel `unique_bills` report restates the same data and is
not needed by any claim). -/
def collect_bills_and_keywords (speeches : List Speech) : BillMap :=
  let variants :=
    speeches.foldl (fun acc r => acc ++ split_raw_bills_field (r.bills.getD [])) []
  (collectCanon variants).map (fun p => (p.1, mkBill p.1 p.2))

/-- `score_text_for_bill` of `post_label_bills.py`: pattern 0 is the whole
canonical title (hard hits), the rest are keywords (soft hits, summed). -/
def score_text_for_bill (text : Str) (bill : Bill) : Nat × Nat :=
  if text = [] then (0, 0)
  else
    let T := normalize_text text
    match bill.patterns with
    | [] => (0, 0)
    | p0 :: rest => (countMatches p0 T, (rest.map (fun p => countMatches p T)).sum)

/-- Decimal digits of a natural number (Python `str` of a non-negative
int). -/
def natStr (n : Nat) : Str := Nat.toDigits 10 n

/-- Python `str` of an int (the f-string interpolation `f"{h}"`). -/
def intStr (i : Int) : Str :=
  if i < 0 then '-' :: natStr i.natAbs else natStr i.toNat

/-- Python tuple comparison `(a1, a2) > (b1, b2)` on int pairs
(lexicographic). -/
def pairGt (a b : Int × Int) : Bool :=
  decide (b.1 < a.1) || (decide (a.1 = b.1) && decide (b.2 < a.2))

/-- The `(hard, soft)` score of one registry pair against `text`, as ints
(the loop compares it with the initial `(-1, -1)`). -/
def intScore (text : Str) (p : Str × Bill) : Int × Int :=
  let hs := score_text_for_bill text p.2
  ((hs.1 : Int), (hs.2 : Int))

/-- The argmax loop shared by `choose_by_score` and the tier-2 candidate
loop: running best key and best score, updated on strictly greater
`(hard, soft)` (so ties keep the first-encountered key). -/
def chooseLoop (text : Str) : Option Str × Int × Int → List (Str × Bill) → Option Str × Int × Int
  | acc, [] => acc
  | acc, p :: rest =>
    if pairGt (intScore text p) acc.2 then chooseLoop text (some p.1, intScore text p) rest
    else chooseLoop text acc rest

/-- The confidence mapping of `choose_by_score`:
`0.9 if h>0 else (0.6 if s>=2 else (0.4 if s==1 else 0.0))`. -/
def confOfInt (hs : Int × Int) : ℚ :=
  if 0 < hs.1 then mkRat 9 10 else if 2 ≤ hs.2 then mkRat 3 5
  else if hs.2 = 1 then mkRat 2 5 else 0

/-- The reason string `f"hard={h}, soft={s}"` of `choose_by_score`. -/
def scoreReason (hs : Int × Int) : Str :=
  "hard=".data ++ intStr hs.1 ++ ", soft=".data ++ intStr hs.2

/-- `choose_by_score` of `assign_bills_to_speeches` (iterating
`canon_list = list(bill_map.keys())` in insertion order; the registry has
duplicate-free keys by construction, so iterating the pairs is the dict
iteration). -/
def chooseByScore (bm : BillMap) (text : Str) : Option Str × ℚ × Str :=
  match chooseLoop text (none, -1, -1) bm with
  | (none, _) => (none, 0, "no-match".data)
  | (some c, hs) => (some c, confOfInt hs, scoreReason hs)

/-- Modelled from the spec's words for tier 1: "select the bill with the
lexicographically greatest `(hard, soft)` tuple (ties resolved by
first-encountered bill in registry iteration order)" — the first registry
pair whose score no other pair strictly exceeds. -/
def specTier1Select (bm : BillMap) (text : Str) : Option (Str × Bill) :=
  bm.find? (fun p => decide (∀ q ∈ bm, pairGt (intScore text q) (intScore text p) = false))

/-- Python truthiness of `picked` / `t_pick` / `best_cand` /
`last_agenda_canon`: a non-`None`, non-empty string. -/
def truthyS : Option Str → Bool
  | none => false
  | some s => decide (s ≠ [])

/-- `last_by_speaker[spk]` lookup (`spk` may be `None`: Python dicts accept
it as a key). -/
def lookupSpk (m : List (Option Str × Str)) (k : Option Str) : Option Str :=
  (m.find? (fun p => decide (p.1 = k))).map Prod.snd

/-- `last_by_speaker[spk] = v` (dict assignment: update in place if the key
exists, else append). -/
def updAssoc (m : List (Option Str × Str)) (k : Option Str) (v : Str) : List (Option Str × Str) :=
  if m.any (fun p => decide (p.1 = k)) then m.map (fun p => if p.1 = k then (k, v) else p)
  else m ++ [(k, v)]

/-- `round(conf, 2)`.  Every reachable confidence (0, 0.4, 0.45, 0.5, 0.6,
0.7, 0.9) is the float closest to a two-decimal value, on which Python's
`round(·, 2)` is the identity. -/
def round2 (c : ℚ) : ℚ := c

/-- The running state of `assign_bills_to_speeches`:
`last_agenda_canon` and `last_by_speaker`. -/
structure LabelState where
  lastAgenda : Option Str
  lastBySpeaker : List (Option Str × Str)
deriving DecidableEq

/-- One output record of `assign_bills_to_speeches`: the input record plus
`bill_assigned`, `bill_confidence`, `bill_reason`. -/
structure Labeled where
  record : Speech
  bill_assigned : Option Str
  bill_confidence : ℚ
  bill_reason : Str
deriving DecidableEq

/-- The normalised in-registry candidates from the record's own `bills`
field (step 1 of the per-record loop). -/
def candidatesOf (bm : BillMap) (rec : Speech) : List Str :=
  (((split_raw_bills_field (rec.bills.getD [])).map normalize_bill_title).filter
    (fun c => decide (c ≠ []))).filter (memBill bm)

/-- Tier 1 (step 2 of the loop body): take `choose_by_score`\'s pick when
truthy, else keep `(None, 0.0, "")`. -/
def tier1 (bm : BillMap) (text : Str) : Option Str × ℚ × Str :=
  let t1 := chooseByScore bm text
  if truthyS t1.1 then (t1.1, t1.2.1, "text-match(".data ++ t1.2.2 ++ ")".data)
  else (none, 0, [])

/-- Tier 2 (step 3): when candidates exist and the confidence so far is
below 0.6, re-score against the candidates only and take the best (the same
strict-greater loop), raising the confidence. -/
def tier2 (bm : BillMap) (text : Str) (candidates : List Str)
    (p1 : Option Str × ℚ × Str) : Option Str × ℚ × Str :=
  if candidates ≠ [] ∧ p1.2.1 < mkRat 6 10 then
    let best := chooseLoop text (none, -1, -1) (candidates.map (fun c => (c, lookupBill bm c)))
    if truthyS best.1 then
      (best.1,
       max p1.2.1 (if best.2 = ((0 : Int), (0 : Int)) then mkRat 6 10
                   else if 0 < best.2.1 then mkRat 9 10 else mkRat 7 10),
       "bills-field-candidate + text(".data ++ intStr best.2.1 ++ ",".data ++
         intStr best.2.2 ++ ")".data)
    else p1
  else p1

/-- Tier 3 (step 4): agenda-flow carry. -/
def tier3 (st : LabelState) (p2 : Option Str × ℚ × Str) : Option Str × ℚ × Str :=
  if !truthyS p2.1 && truthyS st.lastAgenda then (st.lastAgenda, mkRat 1 2, "agenda-flow".data)
  else p2

/-- Tier 4 (step 5): speaker-history carry. -/
def tier4 (st : LabelState) (rec : Speech) (p3 : Option Str × ℚ × Str) : Option Str × ℚ × Str :=
  if !truthyS p3.1 && (lookupSpk st.lastBySpeaker rec.member_name).isSome then
    (lookupSpk st.lastBySpeaker rec.member_name, mkRat 9 20, "speaker-history".data)
  else p3

/-- Tiers 1–4 of the per-record loop of `assign_bills_to_speeches`: the
final `(picked, conf, why)` triple before the state update. -/
def resolvePick (bm : BillMap) (st : LabelState) (rec : Speech) : Option Str × ℚ × Str :=
  let text := rec.speech_text.getD []
  tier4 st rec (tier3 st (tier2 bm text (candidatesOf bm rec) (tier1 bm text)))

/-- The body of the per-record loop of `assign_bills_to_speeches`: the four
evidence tiers (`resolvePick`), the final truthiness test and the state
update. -/
def assignStep (bm : BillMap) (st : LabelState) (rec : Speech) : LabelState × Labeled :=
  let p4 := resolvePick bm st rec
  let st' :=
    if truthyS p4.1 then
      { lastAgenda := p4.1,
        lastBySpeaker := updAssoc st.lastBySpeaker rec.member_name (p4.1.getD []) }
    else st
  (st', { record := rec, bill_assigned := p4.1, bill_confidence := round2 p4.2.1,
          bill_reason := p4.2.2 })

/-- The per-record loop, threading the state in input order. -/
def assignGo (bm : BillMap) : LabelState → List Speech → List Labeled
  | _, [] => []
  | st, r :: rs =>
    let step := assignStep bm st r
    step.2 :: assignGo bm step.1 rs

/-- `assign_bills_to_speeches` of `post_label_bills.py`. -/
def assign_bills_to_speeches (speeches : List Speech) (bm : BillMap) : List Labeled :=
  assignGo bm ⟨none, []⟩ speeches

/-- One record as read by `process_bills.py` (`bills`/`speech_text` default
to the empty string when missing; `speech_id` is only logged). -/
structure PSpeech where
  speech_id : Str
  bills : Str
  speech_text : Str
deriving DecidableEq

/-- `s.split('\n')`: every newline is a separator, empty pieces kept. -/
def splitNL : Str → List Str
  | [] => [[]]
  | c :: rest =>
    if c = '\n' then [] :: splitNL rest
    else
      match splitNL rest with
      | [] => [[c]]
      | piece :: ps => (c :: piece) :: ps

/-- `[b.strip() for b in bill_string.split('\n') if b.strip()]`. -/
def splitBillLines (s : Str) : List Str :=
  ((splitNL s).map stripWS).filter (fun b => decide (b ≠ []))

/-- `get_bill_name` of `process_bills.py`: the single anchored
`re.search(r'^\d+\.\s*(.*?)(?:\(|$)', s.strip())`.  The lazy group stops at
the first `(` or at the end; since `.` does not match a newline (no DOTALL)
the match fails — and the stripped original is returned — whenever a newline
occurs before that point. -/
def get_bill_name (bill_string : Str) : Str :=
  let s := stripWS bill_string
  let ds := s.takeWhile pyDigit
  if ds = [] then s
  else
    match s.dropWhile pyDigit with
    | '.' :: r2 =>
      let body := (r2.dropWhile pySpace).takeWhile (fun c => decide (c ≠ '('))
      if '\n' ∈ body then s else stripWS body
    | _ => s

/-- Python substring test `n in h` (contiguous). -/
def isSubstr (n : Str) : Str → Bool
  | [] => leadEq n []
  | c :: t => leadEq n (c :: t) || isSubstr n t

/-- The acceptance test of `find_most_relevant_bill`:
`chosen == original or chosen in original or original in chosen`. -/
def matchCandB (chosen cand : Str) : Bool :=
  decide (chosen = cand) || isSubstr chosen cand || isSubstr cand chosen

/-- The acceptance loop of `find_most_relevant_bill`: return the first
candidate accepted by `matchCandB`, else fall back to `bill_list[0]`.  The
boolean records whether the fallback branch (the one logged as a warning)
was taken. -/
def acceptChosen (chosen : Str) (orig : List Str) : List Str → Str × Bool
  | [] => (orig.headD [], true)
  | ob :: rest =>
    if matchCandB chosen ob then (ob, false) else acceptChosen chosen orig rest

/-- Modelled from the spec's words (as amended): accept the first candidate
in list order that the returned string equals, is a substring of, or
contains; otherwise fall back to the first candidate, recording the
fallback. -/
def specAccept (chosen : Str) (bl : List Str) : Str × Bool :=
  match bl.find? (matchCandB chosen) with
  | some ob => (ob, false)
  | none => (bl.headD [], true)

/-- `find_most_relevant_bill` of `process_bills.py`, with the OpenAI call
abstracted into its observable outcome `resp`: `none` when the call raises
(timeout, transport error, …; the `except` branch returns `None`), or
`some raw` when the model answers `raw` (which the code strips and matches
against the candidates). -/
def findMostRelevantBill (resp : Option Str) (bill_list : List Str) : Option Str :=
  match resp with
  | none => none
  | some raw => some (acceptChosen (stripWS raw) bill_list bill_list).1

/-- The per-record body of `process_speeches`: fewer than two bills, or all
short names equal → keep the record; otherwise consult the disambiguator
and replace the `bills` field by its (truthy) pick, keeping the record
unchanged on failure. -/
def processOne (resp : PSpeech → Option Str) (sp : PSpeech) : PSpeech :=
  let bl := splitBillLines sp.bills
  if bl.length ≤ 1 then sp
  else if (bl.map get_bill_name).dedup.length = 1 then sp
  else
    match findMostRelevantBill (resp sp) bl with
    | some b => if b ≠ [] then { sp with bills := b } else sp
    | none => sp

/-- `process_speeches` of `process_bills.py` (the loop appends exactly one
output record per input record). -/
def process_speeches (resp : PSpeech → Option Str) : List PSpeech → List PSpeech
  | [] => []
  | sp :: rest => processOne resp sp :: process_speeches resp rest

/-- Modelled from the spec: "letters of any alphabet plus digits"
(claim C10).  Restricted to the alphabets exercised in this development:
the code's own class plus the Greek letter block. -/
def specLetterDigit (c : Char) : Bool :=
  alnumKo c || ('Α' ≤ c && c ≤ 'Ω') || ('α' ≤ c && c ≤ 'ω')

/-- The keyword pipeline with the spec's script-agnostic tokenizer
(everything after tokenisation as in `extract_keywords_from_bill`). -/
def specKeptTokens (title : Str) : List Str :=
  (tokGo specLetterDigit [] (normalize_text title)).filter
    (fun tok => decide (1 < tok.length) && decide (tok ∉ BILL_STOP_TOKENS))

/-- `extract_keywords_from_bill` as the spec describes it (claim C10):
same counting and ordering, but with the script-agnostic tokenizer. -/
def specExtractKeywords (title : Str) (topk : Nat) : List Str :=
  let kept := specKeptTokens title
  (sortByCountDesc (countOf kept) (uniqFirst kept)).take topk

/-- Position of the first occurrence of `t` in `u` (used to state the
first-occurrence tie-break of `Counter.most_common`). -/
def idxIn : List Str → Str → Nat
  | [], _ => 0
  | x :: t, a => if x = a then 0 else idxIn t a + 1

/-! ### Concrete runs: counterexamples and registry facts -/

/-- C6: the two example raw titles (one with enumeration prefix and sponsor
parenthetical, one bare) normalise to the same canonical title, and registry
construction collapses them into a single entry whose `raw_variants`
contains both original strings. -/
theorem C6_registry_dedup :
    normalize_bill_title "1. 교정공제회법 일부개정법률안(홍길동 의원 대표발의)".data
      = normalize_bill_title "교정공제회법 일부개정법률안".data ∧
    (let bm := collect_bills_and_keywords
        [⟨none, some "1. 교정공제회법 일부개정법률안(홍길동 의원 대표발의)\n교정공제회법 일부개정법률안".data, none⟩]
     bm.length = 1 ∧
     "1. 교정공제회법 일부개정법률안(홍길동 의원 대표발의)".data
        ∈ (lookupBill bm "교정공제회법".data).raw_variants ∧
     "교정공제회법 일부개정법률안".data ∈ (lookupBill bm "교정공제회법".data).raw_variants) := by
  decide

/-- C5 counterexample: `normalize_bill_title` is not idempotent.  Removing
the stop phrase `"대안"` from `"법률대안안"` creates a fresh occurrence of the
earlier stop phrase `"법률안"`, which only a second pass removes. -/
theorem C5_counterexample :
    normalize_bill_title (normalize_bill_title "법률대안안".data)
      ≠ normalize_bill_title "법률대안안".data := by
  decide

/-- C1 counterexample: a first utterance with no text, no usable field and
no prior state, whose text scores `(0, 0)` against every registry bill.
With a non-empty registry the resolver still assigns the first registry
bill (reason `text-match(hard=0, soft=0)`), and with an empty registry the
reason is the empty string, not `"no-match"`. -/
theorem C1_counterexample :
    (let reg := collect_bills_and_keywords [⟨none, none, none⟩, ⟨none, some "가나다라".data, none⟩]
     let out := assign_bills_to_speeches [⟨none, none, none⟩, ⟨none, some "가나다라".data, none⟩] reg
     (∀ p ∈ reg, score_text_for_bill [] p.2 = (0, 0)) ∧
     candidatesOf reg ⟨none, none, none⟩ = [] ∧
     out.head?.map Labeled.bill_assigned = some (some "가나다라".data) ∧
     out.head?.map Labeled.bill_confidence = some 0 ∧
     out.head?.map Labeled.bill_reason = some "text-match(hard=0, soft=0)".data) ∧
    (assign_bills_to_speeches [⟨none, none, none⟩] (collect_bills_and_keywords [⟨none, none, none⟩])
       = [⟨⟨none, none, none⟩, none, 0, []⟩] ∧
     ([] : Str) ≠ "no-match".data) := by
  decide

/-- C2 counterexample: with hard = soft = 0 tier 1 still yields a pick
(`choose_by_score` returns the first registry bill and the caller keeps it,
with confidence 0.0), refuting the "(no pick)" reading. -/
theorem C2_counterexample :
    (let bm := collect_bills_and_keywords [⟨none, some "가나다라".data, none⟩]
     chooseByScore bm [] = (some "가나다라".data, 0, "hard=0, soft=0".data) ∧
     (assignStep bm ⟨none, []⟩ ⟨none, none, none⟩).2.bill_assigned = some "가나다라".data ∧
     (assignStep bm ⟨none, []⟩ ⟨none, none, none⟩).2.bill_confidence = 0) := by
  decide

/-- C3 counterexample: utterance 1 is assigned `마바사아` with confidence
0.9; utterance 2 has no field and no text overlap, yet it is not carried the
previous bill with confidence 0.5 and reason `agenda-flow` — tier 1 assigns
the first registry bill `가나다라` with confidence 0.0. -/
theorem C3_counterexample :
    (let speeches : List Speech :=
      [⟨some "마바사아".data, some "가나다라\n마바사아".data, none⟩, ⟨none, none, none⟩]
     assign_bills_to_speeches speeches (collect_bills_and_keywords speeches)
       = [⟨⟨some "마바사아".data, some "가나다라\n마바사아".data, none⟩, some "마바사아".data,
            mkRat 9 10, "text-match(hard=1, soft=1)".data⟩,
          ⟨⟨none, none, none⟩, some "가나다라".data, 0, "text-match(hard=0, soft=0)".data⟩] ∧
     "가나다라".data ≠ "마바사아".data) := by
  decide

/-- C4 counterexample: every score is `(0, 0)` (empty text), but the second
utterance's field names the second registry bill, so tier 2 assigns that
bill with confidence 0.6 and reason `bills-field-candidate + text(0,0)` —
not the first registry bill with confidence 0.0 and a `text-match` reason. -/
theorem C4_counterexample :
    (let speeches : List Speech := [⟨none, some "가나다라".data, none⟩, ⟨none, some "마바사아".data, none⟩]
     let reg := collect_bills_and_keywords speeches
     let out := assign_bills_to_speeches speeches reg
     (∀ p ∈ reg, score_text_for_bill [] p.2 = (0, 0)) ∧
     reg.head?.map Prod.fst = some "가나다라".data ∧
     out.get? 1 = some ⟨⟨none, some "마바사아".data, none⟩, some "마바사아".data, mkRat 3 5,
       "bills-field-candidate + text(0,0)".data⟩ ∧
     "마바사아".data ≠ "가나다라".data) := by
  decide

/-- C7 counterexample: the returned string `"법안"` is a substring of two
candidates and equal to none; the engine does not fall back to the first
candidate of the list but accepts the first matching candidate. -/
theorem C7_counterexample :
    (let bl : List Str := ["x".data, "a법안b".data, "c법안d".data]
     (∀ b ∈ bl, "법안".data ≠ b) ∧
     isSubstr "법안".data "a법안b".data = true ∧
     isSubstr "법안".data "c법안d".data = true ∧
     findMostRelevantBill (some "법안".data) bl = some "a법안b".data ∧
     acceptChosen "법안".data bl bl = ("a법안b".data, false) ∧
     "a법안b".data ≠ "x".data) := by
  decide

/-- C10 counterexample: Greek letters are letters of an alphabet but are not
matched by the tokenizer `[가-힣A-Za-z0-9]`, so the title `"αβ αβ"` yields no
keywords at all, while the spec's script-agnostic tokenisation yields
`["αβ"]`. -/
theorem C10_counterexample :
    extract_keywords_from_bill "αβ αβ".data 1 = [] ∧
    specExtractKeywords "αβ αβ".data 1 = ["αβ".data] ∧
    ([] : List Str) ≠ ["αβ".data] := by
  decide

/-! ### Association-list and acceptance-loop lemmas -/

theorem lookupSpk_cons (p : Option Str × Str) (m : List (Option Str × Str)) (k' : Option Str) :
    lookupSpk (p :: m) k' = if p.1 = k' then some p.2 else lookupSpk m k' := by
  unfold lookupSpk
  by_cases hp : p.1 = k'
  · rw [List.find?_cons_of_pos _ (by simpa using hp), if_pos hp]
    rfl
  · rw [List.find?_cons_of_neg _ (by simpa using hp), if_neg hp]

theorem lookupSpk_map_upd_ne (k k' : Option Str) (v : Str) (hne : k' ≠ k) :
    ∀ m : List (Option Str × Str),
      lookupSpk (m.map (fun p => if p.1 = k then (k, v) else p)) k' = lookupSpk m k' := by
  intro m
  induction m with
  | nil => rfl
  | cons p rest ih =>
    simp only [List.map_cons]
    rw [lookupSpk_cons, lookupSpk_cons]
    by_cases hp : p.1 = k
    · simp only [if_pos hp]
      have e1 : ¬ ((k, v).1 = k') := fun h => hne h.symm
      have e2 : ¬ (p.1 = k') := by rw [hp]; exact fun h => hne h.symm
      rw [if_neg e1, if_neg e2]
      exact ih
    · simp only [if_neg hp]
      by_cases hp' : p.1 = k'
      · rw [if_pos hp', if_pos hp']
      · rw [if_neg hp', if_neg hp']
        exact ih

theorem lookupSpk_map_upd_self (k : Option Str) (v : Str) :
    ∀ m : List (Option Str × Str), m.any (fun p => decide (p.1 = k)) = true →
      lookupSpk (m.map (fun p => if p.1 = k then (k, v) else p)) k = some v := by
  intro m
  induction m with
  | nil => simp
  | cons p rest ih =>
    intro hany
    simp only [List.map_cons]
    rw [lookupSpk_cons]
    by_cases hp : p.1 = k
    · simp [if_pos hp]
    · simp only [List.any_cons, Bool.or_eq_true, decide_eq_true_eq] at hany
      have hrest : rest.any (fun p => decide (p.1 = k)) = true := by
        rcases hany with h | h
        · exact absurd h hp
        · exact h
      simp only [if_neg hp]
      exact ih hrest

theorem lookupSpk_updAssoc_self (m : List (Option Str × Str)) (k : Option Str) (v : Str) :
    lookupSpk (updAssoc m k v) k = some v := by
  unfold updAssoc
  split
  · rename_i hany
    exact lookupSpk_map_upd_self k v m hany
  · rename_i hany
    have hnone : List.find? (fun p => decide (p.1 = k)) m = none := by
      rw [List.find?_eq_none]
      intro x hx
      simp only [decide_eq_true_eq]
      intro hxk
      exact hany (List.any_eq_true.mpr ⟨x, hx, by simpa using hxk⟩)
    unfold lookupSpk
    rw [List.find?_append, hnone, Option.none_or,
      List.find?_cons_of_pos _ (by simp)]
    rfl

theorem lookupSpk_updAssoc_ne (m : List (Option Str × Str)) (k k' : Option Str) (v : Str)
    (hne : k' ≠ k) : lookupSpk (updAssoc m k v) k' = lookupSpk m k' := by
  unfold updAssoc
  split
  · exact lookupSpk_map_upd_ne k k' v hne m
  · unfold lookupSpk
    rw [List.find?_append,
      List.find?_cons_of_neg _ (by simpa using fun h => hne h.symm)]
    simp

theorem acceptChosen_eq_specAccept (chosen : Str) (bl : List Str) :
    acceptChosen chosen bl bl = specAccept chosen bl := by
  suffices h : ∀ l orig, acceptChosen chosen orig l =
      (match l.find? (matchCandB chosen) with
        | some ob => (ob, false)
        | none => (orig.headD [], true)) by
    exact h bl bl
  intro l orig
  induction l with
  | nil => simp [acceptChosen]
  | cons ob rest ih =>
    by_cases hm : matchCandB chosen ob = true
    · simp [acceptChosen, hm, List.find?_cons_of_pos _ hm]
    · have hm' : matchCandB chosen ob = false := by simpa using hm
      rw [List.find?_cons_of_neg rest (by simp [hm'] : ¬ matchCandB chosen ob = true)]
      simp [acceptChosen, hm', ih]

/-! ### Claims C7, C8, C9 -/

/-- C7 (amended): the engine accepts the first candidate in list order that
the (stripped) returned string equals, is a substring of, or contains; only
when no candidate matches does it fall back to the first candidate of the
original list, recording the fallback. -/
theorem C7_amended_first_match (raw : Str) (bl : List Str) :
    acceptChosen (stripWS raw) bl bl = specAccept (stripWS raw) bl ∧
    findMostRelevantBill (some raw) bl = some (specAccept (stripWS raw) bl).1 := by
  refine ⟨acceptChosen_eq_specAccept _ bl, ?_⟩
  show some (acceptChosen (stripWS raw) bl bl).1 = some (specAccept (stripWS raw) bl).1
  rw [acceptChosen_eq_specAccept]

/-- C8: a Disambiguator call failure (`resp sp = none`, i.e. the API call
raised and the `except` branch returned `None`) is non-fatal: the record is
kept with its original `bills` field, and since `process_speeches` is an
element-wise map, every other utterance is processed exactly as it would
have been — none is skipped, corrupted, or reordered. -/
theorem C8_failure_non_fatal (resp : PSpeech → Option Str) :
    (∀ speeches, process_speeches resp speeches = speeches.map (processOne resp)) ∧
    (∀ sp, resp sp = none → processOne resp sp = sp) := by
  constructor
  · intro speeches
    induction speeches with
    | nil => rfl
    | cons sp rest ih => simp [process_speeches, ih]
  · intro sp h
    unfold processOne
    rw [h]
    simp only [findMostRelevantBill]
    split
    · rfl
    · split <;> rfl

/-- C8 witness: a record whose field holds two bills with different short
names, processed with a failing disambiguator, is returned unchanged. -/
theorem C8_failure_non_fatal_witness :
    2 ≤ (splitBillLines (⟨"7".data, "1. 가법안(a)\n2. 나법안(b)".data, "본회의".data⟩ : PSpeech).bills).length ∧
    processOne (fun _ => none) ⟨"7".data, "1. 가법안(a)\n2. 나법안(b)".data, "본회의".data⟩
      = ⟨"7".data, "1. 가법안(a)\n2. 나법안(b)".data, "본회의".data⟩ :=
  ⟨by decide,
   (C8_failure_non_fatal (fun _ => none)).2
     ⟨"7".data, "1. 가법안(a)\n2. 나법안(b)".data, "본회의".data⟩ rfl⟩

/-- C9: the state update of the resolver.  If the final pick is null the
state is completely unchanged; if a bill `b` is picked (any tier), the new
state has `last_agenda_bill = b` and `last_bill_by_speaker[speaker] = b`,
and no other speaker's entry changes.  The update happens in the single
`if picked:` block executed once per utterance, after all evidence
gathering, which the functional state-transition relation captures. -/
theorem C9_state_update (bm : BillMap) (st : LabelState) (rec : Speech) :
    ((assignStep bm st rec).2.bill_assigned = none → (assignStep bm st rec).1 = st) ∧
    (∀ b, (assignStep bm st rec).2.bill_assigned = some b → b ≠ [] →
      (assignStep bm st rec).1.lastAgenda = some b ∧
      lookupSpk (assignStep bm st rec).1.lastBySpeaker rec.member_name = some b ∧
      (∀ k, k ≠ rec.member_name →
        lookupSpk (assignStep bm st rec).1.lastBySpeaker k = lookupSpk st.lastBySpeaker k)) := by
  have hassigned : (assignStep bm st rec).2.bill_assigned = (resolvePick bm st rec).1 := rfl
  have hst : (assignStep bm st rec).1 =
      (if truthyS (resolvePick bm st rec).1 then
        ({ lastAgenda := (resolvePick bm st rec).1,
           lastBySpeaker := updAssoc st.lastBySpeaker rec.member_name
             ((resolvePick bm st rec).1.getD []) } : LabelState)
       else st) := rfl
  constructor
  · intro h0
    have h1 : (resolvePick bm st rec).1 = none := hassigned ▸ h0
    rw [hst, h1]
    simp [truthyS]
  · intro b hb hbne
    have h1 : (resolvePick bm st rec).1 = some b := hassigned ▸ hb
    have htr : truthyS (some b) = true := by simpa [truthyS] using hbne
    rw [hst, h1, if_pos htr]
    refine ⟨rfl, ?_, ?_⟩
    · simpa using lookupSpk_updAssoc_self st.lastBySpeaker rec.member_name b
    · intro k hk
      simpa using lookupSpk_updAssoc_ne st.lastBySpeaker rec.member_name k b hk

/-- C9 witness: a concrete record with speaker `"김"` picking the single
registry bill updates both state components to that bill. -/
theorem C9_state_update_witness :
    (assignStep (collect_bills_and_keywords [⟨none, some "가나다라".data, none⟩]) ⟨none, []⟩
        ⟨none, some "가나다라".data, some "김".data⟩).1.lastAgenda = some "가나다라".data ∧
    lookupSpk (assignStep (collect_bills_and_keywords [⟨none, some "가나다라".data, none⟩]) ⟨none, []⟩
        ⟨none, some "가나다라".data, some "김".data⟩).1.lastBySpeaker (some "김".data)
      = some "가나다라".data := by
  have h := (C9_state_update (collect_bills_and_keywords [⟨none, some "가나다라".data, none⟩])
    ⟨none, []⟩ ⟨none, some "가나다라".data, some "김".data⟩).2 "가나다라".data (by decide) (by decide)
  exact ⟨h.1, h.2.1⟩

/-! ### The tier-1 argmax loop -/

theorem pairGt_irrefl (a : Int × Int) : pairGt a a = false := by
  simp [pairGt]

theorem pairGt_trans {a b c : Int × Int} (h1 : pairGt a b = true) (h2 : pairGt b c = true) :
    pairGt a c = true := by
  simp only [pairGt, Bool.or_eq_true, Bool.and_eq_true, decide_eq_true_eq] at h1 h2 ⊢
  omega

theorem pairGt_asymm {a b : Int × Int} (h : pairGt a b = true) : pairGt b a = false := by
  simp only [pairGt, Bool.or_eq_true, Bool.and_eq_true, decide_eq_true_eq,
    Bool.or_eq_false_iff, Bool.and_eq_false_iff, decide_eq_false_iff_not] at h ⊢
  omega

theorem pairGt_total {a b : Int × Int} (h1 : pairGt a b = false) (h2 : pairGt b a = false) :
    a = b := by
  rcases a with ⟨a1, a2⟩
  rcases b with ⟨b1, b2⟩
  simp only [pairGt, Bool.or_eq_false_iff, Bool.and_eq_false_iff,
    decide_eq_false_iff_not] at h1 h2
  simp only [Prod.mk.injEq]
  omega

/-- Every real score beats the initial `(-1, -1)` of the loop. -/
theorem pairGt_intScore_init (text : Str) (p : Str × Bill) :
    pairGt (intScore text p) (-1, -1) = true := by
  rcases h : score_text_for_bill text p.2 with ⟨hh, ss⟩
  simp only [pairGt, intScore, h, Bool.or_eq_true, Bool.and_eq_true, decide_eq_true_eq]
  omega

/-- Characterisation of the argmax loop started at `(b, hs)`: either no
element strictly beats `hs` and the accumulator survives, or the result is
the first element that attains the maximum of the scores. -/
theorem chooseLoop_char (text : Str) :
    ∀ (l : List (Str × Bill)) (b : Option Str) (hs : Int × Int),
      (chooseLoop text (b, hs) l = (b, hs) ∧
        ∀ p ∈ l, pairGt (intScore text p) hs = false) ∨
      (∃ i p, l.get? i = some p ∧
        chooseLoop text (b, hs) l = (some p.1, intScore text p) ∧
        pairGt (intScore text p) hs = true ∧
        (∀ j q, l.get? j = some q → pairGt (intScore text q) (intScore text p) = false) ∧
        (∀ j q, j < i → l.get? j = some q →
          pairGt (intScore text p) (intScore text q) = true)) := by
  intro l
  induction l with
  | nil => intro b hs; exact Or.inl ⟨rfl, by simp⟩
  | cons p l ih =>
    intro b hs
    by_cases hgt : pairGt (intScore text p) hs = true
    · have hstep : chooseLoop text (b, hs) (p :: l)
          = chooseLoop text (some p.1, intScore text p) l := by
        simp [chooseLoop, hgt]
      rcases ih (some p.1) (intScore text p) with ⟨heq, hall⟩ | ⟨i, q, hget, heq, hq, hmax, hfirst⟩
      · refine Or.inr ⟨0, p, rfl, by rw [hstep, heq], hgt, ?_, ?_⟩
        · intro j q hj
          cases j with
          | zero =>
            rw [List.get?_cons_zero] at hj
            injection hj with hj
            subst hj
            exact pairGt_irrefl _
          | succ j =>
            rw [List.get?_cons_succ] at hj
            exact hall q (List.get?_mem hj)
        · intro j q hjlt _
          exact absurd hjlt (Nat.not_lt_zero j)
      · refine Or.inr ⟨i + 1, q, by simpa using hget, by rw [hstep, heq],
          pairGt_trans hq hgt, ?_, ?_⟩
        · intro j r hj
          cases j with
          | zero =>
            rw [List.get?_cons_zero] at hj
            injection hj with hj
            subst hj
            exact pairGt_asymm hq
          | succ j =>
            rw [List.get?_cons_succ] at hj
            exact hmax j r hj
        · intro j r hjlt hj
          cases j with
          | zero =>
            rw [List.get?_cons_zero] at hj
            injection hj with hj
            subst hj
            exact hq
          | succ j =>
            rw [List.get?_cons_succ] at hj
            exact hfirst j r (by omega) hj
    · have hgt' : pairGt (intScore text p) hs = false := by simpa using hgt
      have hstep : chooseLoop text (b, hs) (p :: l) = chooseLoop text (b, hs) l := by
        simp [chooseLoop, hgt']
      rcases ih b hs with ⟨heq, hall⟩ | ⟨i, q, hget, heq, hq, hmax, hfirst⟩
      · refine Or.inl ⟨by rw [hstep, heq], ?_⟩
        intro r hr
        rcases List.mem_cons.mp hr with h | h
        · rw [h]; exact hgt'
        · exact hall r h
      · have hpq : pairGt (intScore text q) (intScore text p) = true := by
          by_cases hc : pairGt (intScore text q) (intScore text p) = true
          · exact hc
          · exfalso
            have hc' : pairGt (intScore text q) (intScore text p) = false := by simpa using hc
            by_cases hd : pairGt (intScore text p) (intScore text q) = true
            · have hcontra := pairGt_trans hd hq
              rw [hcontra] at hgt'
              cases hgt'
            · have hd' : pairGt (intScore text p) (intScore text q) = false := by simpa using hd
              have heqs := pairGt_total hd' hc'
              rw [← heqs] at hq
              rw [hq] at hgt'
              cases hgt'
        refine Or.inr ⟨i + 1, q, by simpa using hget, by rw [hstep, heq], hq, ?_, ?_⟩
        · intro j r hj
          cases j with
          | zero =>
            rw [List.get?_cons_zero] at hj
            injection hj with hj
            subst hj
            exact pairGt_asymm hpq
          | succ j =>
            rw [List.get?_cons_succ] at hj
            exact hmax j r hj
        · intro j r hjlt hj
          cases j with
          | zero =>
            rw [List.get?_cons_zero] at hj
            injection hj with hj
            subst hj
            exact hpq
          | succ j =>
            rw [List.get?_cons_succ] at hj
            exact hfirst j r (by omega) hj

/-- On a non-empty registry the loop started at `(None, (-1, -1))` returns
the first bill attaining the lexicographic maximum of the scores. -/
theorem chooseLoop_start (text : Str) (l : List (Str × Bill)) (hne : l ≠ []) :
    ∃ i p, l.get? i = some p ∧
      chooseLoop text (none, -1, -1) l = (some p.1, intScore text p) ∧
      (∀ j q, l.get? j = some q → pairGt (intScore text q) (intScore text p) = false) ∧
      (∀ j q, j < i → l.get? j = some q →
        pairGt (intScore text p) (intScore text q) = true) := by
  rcases chooseLoop_char text l none (-1, -1) with ⟨_, hall⟩ | ⟨i, p, hget, heq, _, hmax, hfirst⟩
  · exfalso
    cases l with
    | nil => exact hne rfl
    | cons p l =>
      have h1 := hall p (List.mem_cons_self p l)
      rw [pairGt_intScore_init] at h1
      cases h1
  · exact ⟨i, p, hget, heq, hmax, hfirst⟩

/-- `find?` returns the element at the first index whose test passes. -/
theorem find?_first {α : Type} (pr : α → Bool) :
    ∀ (l : List α) (i : Nat) (p : α), l.get? i = some p → pr p = true →
      (∀ j q, j < i → l.get? j = some q → pr q = false) → l.find? pr = some p := by
  intro l
  induction l with
  | nil => intro i p h _ _; simp at h
  | cons x t ih =>
    intro i p hget hp hfail
    cases i with
    | zero =>
      rw [List.get?_cons_zero] at hget
      injection hget with h
      subst h
      exact List.find?_cons_of_pos _ hp
    | succ i =>
      have hx : pr x = false := hfail 0 x (Nat.succ_pos i) rfl
      rw [List.find?_cons_of_neg t (by simp [hx])]
      exact ih i p (by simpa using hget) hp
        (fun j q hj hq => hfail (j + 1) q (by omega) (by simpa using hq))

/-- C2 (amended): for every utterance text and every registry, tier 1
selects exactly the bill described by the spec — the first registry bill in
insertion order whose `(hard, soft)` tuple no other bill lexicographically
exceeds — and its confidence is the mapping 0.9 / 0.6 / 0.4 / 0.0 of the
selected bill's score (the 0.0 case still being a pick, per the
counterexample). -/
theorem C2_amended_tier1_argmax (bm : BillMap) (text : Str) :
    (chooseByScore bm text).1 = (specTier1Select bm text).map Prod.fst ∧
    (chooseByScore bm text).2.1 =
      ((specTier1Select bm text).map (fun p => confOfInt (intScore text p))).getD 0 := by
  cases bm with
  | nil => exact ⟨rfl, rfl⟩
  | cons p0 rest =>
    obtain ⟨i, p, hget, heq, hmax, hfirst⟩ := chooseLoop_start text (p0 :: rest) (by simp)
    have hspec : specTier1Select (p0 :: rest) text = some p := by
      unfold specTier1Select
      apply find?_first _ _ i p hget
      · rw [decide_eq_true_eq]
        intro q hq
        obtain ⟨j, hj⟩ := List.mem_iff_get?.mp hq
        exact hmax j q hj
      · intro j q hj hq
        rw [decide_eq_false_iff_not]
        intro hforall
        have h1 := hforall p (List.get?_mem hget)
        rw [hfirst j q hj hq] at h1
        cases h1
    have hcbs : chooseByScore (p0 :: rest) text
        = (some p.1, confOfInt (intScore text p), scoreReason (intScore text p)) := by
      unfold chooseByScore
      rw [heq]
    rw [hcbs, hspec]
    exact ⟨rfl, rfl⟩

/-! ### Per-tier lemmas for the resolver -/

theorem candidatesOf_nil (rec : Speech) : candidatesOf [] rec = [] := by
  unfold candidatesOf
  apply List.filter_eq_nil_iff.mpr
  intro a _
  simp [memBill]

theorem tier3_skip (st : LabelState) {p2 : Option Str × ℚ × Str}
    (h : truthyS p2.1 = true) : tier3 st p2 = p2 := by
  unfold tier3
  simp [h]

theorem tier4_skip (st : LabelState) (rec : Speech) {p3 : Option Str × ℚ × Str}
    (h : truthyS p3.1 = true) : tier4 st rec p3 = p3 := by
  unfold tier4
  simp [h]

theorem tier2_cases (bm : BillMap) (text : Str) (cands : List Str)
    (p1 : Option Str × ℚ × Str) :
    tier2 bm text cands p1 = p1 ∨
      ∃ b q t, tier2 bm text cands p1
          = (some b, q, "bills-field-candidate + text(".data ++ t) ∧ b ≠ ([] : Str) := by
  simp only [tier2]
  split
  · split
    · rename_i htr
      rcases hb : (chooseLoop text (none, -1, -1) (cands.map (fun c => (c, lookupBill bm c)))).1
        with _ | b
      · rw [hb] at htr
        simp [truthyS] at htr
      · rw [hb] at htr
        have hbne : b ≠ [] := by simpa [truthyS] using htr
        right
        refine ⟨b,
          p1.2.1 ⊔ (if (chooseLoop text (none, -1, -1)
                (cands.map (fun c => (c, lookupBill bm c)))).2 = ((0 : Int), (0 : Int))
              then mkRat 6 10
              else if 0 < (chooseLoop text (none, -1, -1)
                  (cands.map (fun c => (c, lookupBill bm c)))).2.1
                then mkRat 9 10 else mkRat 7 10),
          intStr (chooseLoop text (none, -1, -1)
              (cands.map (fun c => (c, lookupBill bm c)))).2.1 ++
            (",".data ++ (intStr (chooseLoop text (none, -1, -1)
              (cands.map (fun c => (c, lookupBill bm c)))).2.2 ++ ")".data)),
          ?_, hbne⟩
        simp [List.append_assoc]
    · left; rfl
  · left; rfl

/-- A record processed against the empty registry with the initial state:
no tier fires, the reason stays the empty string, the state is untouched. -/
theorem assignStep_empty (rec : Speech) :
    assignStep [] ⟨none, []⟩ rec = (⟨none, []⟩, ⟨rec, none, 0, []⟩) := by
  have h1 : tier1 [] (rec.speech_text.getD []) = (none, 0, []) := rfl
  have h2 : tier2 [] (rec.speech_text.getD []) (candidatesOf [] rec) (none, 0, []) = (none, 0, []) := by
    rw [candidatesOf_nil]
    simp [tier2]
  have h3 : tier3 ⟨none, []⟩ ((none : Option Str), (0 : ℚ), ([] : Str)) = (none, 0, []) := rfl
  have h4 : tier4 ⟨none, []⟩ rec ((none : Option Str), (0 : ℚ), ([] : Str)) = (none, 0, []) := rfl
  have hres : resolvePick [] ⟨none, []⟩ rec = (none, 0, []) := by
    show tier4 ⟨none, []⟩ rec (tier3 ⟨none, []⟩
      (tier2 [] (rec.speech_text.getD []) (candidatesOf [] rec)
        (tier1 [] (rec.speech_text.getD [])))) = (none, 0, [])
    rw [h1, h2, h3, h4]
  show (if truthyS (resolvePick [] ⟨none, []⟩ rec).1 then _ else _,
    ({ record := rec, bill_assigned := (resolvePick [] ⟨none, []⟩ rec).1,
       bill_confidence := round2 (resolvePick [] ⟨none, []⟩ rec).2.1,
       bill_reason := (resolvePick [] ⟨none, []⟩ rec).2.2 } : Labeled)) = _
  rw [hres]
  rfl

theorem assignGo_empty : ∀ speeches : List Speech,
    assignGo [] ⟨none, []⟩ speeches
      = speeches.map (fun rec => ⟨rec, none, 0, []⟩) := by
  intro speeches
  induction speeches with
  | nil => rfl
  | cons r rs ih =>
    show (assignStep [] ⟨none, []⟩ r).2 :: assignGo [] (assignStep [] ⟨none, []⟩ r).1 rs = _
    rw [assignStep_empty]
    simp only [List.map_cons]
    exact congrArg _ ih

theorem assignGo_forall (bm : BillMap) (P : Labeled → Prop)
    (hstep : ∀ st rec, P (assignStep bm st rec).2) :
    ∀ (speeches : List Speech) (st : LabelState), ∀ lab ∈ assignGo bm st speeches, P lab := by
  intro speeches
  induction speeches with
  | nil => intro st lab h; simp [assignGo] at h
  | cons r rs ih =>
    intro st lab h
    have h' : lab ∈ (assignStep bm st r).2 :: assignGo bm (assignStep bm st r).1 rs := h
    rcases List.mem_cons.mp h' with h | h
    · rw [h]; exact hstep st r
    · exact ih _ lab h

theorem ne_of_first_char {t s : Str} {c : Char} (h0 : t.get? 0 = some c)
    (h1 : ¬ s.get? 0 = some c) : t ≠ s :=
  fun h => h1 (h ▸ h0)

theorem chooseLoop_zero (text : Str) :
    ∀ (l : List (Str × Bill)) (b : Option Str),
      (∀ p ∈ l, intScore text p = (0, 0)) →
      chooseLoop text (b, ((0 : Int), (0 : Int))) l = (b, (0, 0)) := by
  intro l
  induction l with
  | nil => intro b _; rfl
  | cons p t ih =>
    intro b h
    have hp : intScore text p = (0, 0) := h p (List.mem_cons_self p t)
    have hgt : pairGt (intScore text p) (0, 0) = false := by
      rw [hp]; exact pairGt_irrefl _
    show (if pairGt (intScore text p) (0, 0) = true then _ else
        chooseLoop text (b, ((0 : Int), (0 : Int))) t) = _
    rw [hgt]
    simp only [Bool.false_eq_true, if_false]
    exact ih b (fun q hq => h q (List.mem_cons_of_mem p hq))

/-- With a non-empty registry whose canonical titles are non-empty (as
`collect_bills_and_keywords` guarantees), tier 1 always yields a truthy
pick, tier 2 can only replace it by a truthy candidate, and tiers 3 and 4
never fire: the final pick is a non-empty bill and the reason starts with
`text-match(` or `bills-field-candidate + text(`. -/
theorem resolvePick_shape (bm : BillMap) (hne : bm ≠ []) (hkeys : ∀ p ∈ bm, p.1 ≠ ([] : Str))
    (st : LabelState) (rec : Speech) :
    ∃ b, (resolvePick bm st rec).1 = some b ∧ b ≠ [] ∧
      ((∃ t, (resolvePick bm st rec).2.2 = "text-match(".data ++ t) ∨
       (∃ t, (resolvePick bm st rec).2.2 = "bills-field-candidate + text(".data ++ t)) := by
  obtain ⟨i, p, hget, heq, -, -⟩ := chooseLoop_start (rec.speech_text.getD []) bm hne
  have hpkey : p.1 ≠ [] := hkeys p (List.get?_mem hget)
  have ht1 : tier1 bm (rec.speech_text.getD []) =
      (some p.1, confOfInt (intScore (rec.speech_text.getD []) p),
        "text-match(".data ++ scoreReason (intScore (rec.speech_text.getD []) p) ++ ")".data) := by
    unfold tier1 chooseByScore
    rw [heq]
    simp [truthyS, hpkey]
  have hres : resolvePick bm st rec =
      tier4 st rec (tier3 st (tier2 bm (rec.speech_text.getD []) (candidatesOf bm rec)
        (tier1 bm (rec.speech_text.getD [])))) := rfl
  rcases tier2_cases bm (rec.speech_text.getD []) (candidatesOf bm rec)
      (tier1 bm (rec.speech_text.getD [])) with h2 | ⟨b, q, t, h2, hbne⟩
  · have htr : truthyS (tier2 bm (rec.speech_text.getD []) (candidatesOf bm rec)
        (tier1 bm (rec.speech_text.getD []))).1 = true := by
      rw [h2, ht1]
      simpa [truthyS] using hpkey
    refine ⟨p.1, ?_, hpkey, Or.inl ⟨scoreReason (intScore (rec.speech_text.getD []) p) ++ ")".data, ?_⟩⟩
    · rw [hres, tier3_skip st htr, tier4_skip st rec htr, h2, ht1]
    · rw [hres, tier3_skip st htr, tier4_skip st rec htr, h2, ht1]
      simp [List.append_assoc]
  · have htr : truthyS (tier2 bm (rec.speech_text.getD []) (candidatesOf bm rec)
        (tier1 bm (rec.speech_text.getD []))).1 = true := by
      rw [h2]
      simpa [truthyS] using hbne
    refine ⟨b, ?_, hbne, Or.inr ⟨t, ?_⟩⟩
    · rw [hres, tier3_skip st htr, tier4_skip st rec htr, h2]
    · rw [hres, tier3_skip st htr, tier4_skip st rec htr, h2]

/-- C3 (amended): the agenda-flow tier is dead code.  For every registry
with non-empty canonical titles (as built by `collect_bills_and_keywords`)
and every utterance sequence, no output record carries reason
`"agenda-flow"`: with a non-empty registry tier 1 always picks first, and
with an empty registry no pick ever happens, so `last_agenda_bill` is never
set. -/
theorem C3_amended_agenda_flow_dead (bm : BillMap) (hkeys : ∀ p ∈ bm, p.1 ≠ ([] : Str))
    (speeches : List Speech) :
    ∀ lab ∈ assign_bills_to_speeches speeches bm,
      lab.bill_reason ≠ "agenda-flow".data := by
  cases hbm : bm with
  | nil =>
    intro lab hmem
    have hmem' : lab ∈ assignGo [] ⟨none, []⟩ speeches := hmem
    rw [assignGo_empty] at hmem'
    obtain ⟨rec, -, hlab⟩ := List.mem_map.mp hmem'
    rw [← hlab]
    show ([] : Str) ≠ "agenda-flow".data
    decide
  | cons p0 rest =>
    subst hbm
    intro lab hmem
    refine assignGo_forall _ (fun lab => lab.bill_reason ≠ "agenda-flow".data) ?_ speeches ⟨none, []⟩ lab hmem
    intro st rec
    obtain ⟨b, -, -, hform⟩ := resolvePick_shape _ (by simp) hkeys st rec
    have hreason : (assignStep (p0 :: rest) st rec).2.bill_reason
        = (resolvePick (p0 :: rest) st rec).2.2 := rfl
    rw [hreason]
    rcases hform with ⟨t, ht⟩ | ⟨t, ht⟩
    · rw [ht]
      exact ne_of_first_char (c := 't') rfl (by decide)
    · rw [ht]
      exact ne_of_first_char (c := 'b') rfl (by decide)

/-- The all-zero step: when every registry bill scores `(0, 0)` against the
record\'s text and the field yields no known candidate, the step assigns the
first registry bill with confidence 0 and reason `text-match(hard=0, soft=0)`,
whatever the state. -/
theorem assignStep_all_zero (bm : BillMap) (p0 : Str × Bill) (bmrest : List (Str × Bill))
    (hbm : bm = p0 :: bmrest) (hkeys : ∀ p ∈ bm, p.1 ≠ ([] : Str)) (st : LabelState)
    (rec : Speech)
    (hzero : ∀ p ∈ bm, score_text_for_bill (rec.speech_text.getD []) p.2 = (0, 0))
    (hcand : candidatesOf bm rec = []) :
    (assignStep bm st rec).2 = ⟨rec, some p0.1, 0, "text-match(hard=0, soft=0)".data⟩ := by
  subst hbm
  have hz0 : ∀ p ∈ p0 :: bmrest, intScore (rec.speech_text.getD []) p = (0, 0) := by
    intro p hp
    unfold intScore
    rw [hzero p hp]
    rfl
  have hz0p : intScore (rec.speech_text.getD []) p0 = (0, 0) :=
    hz0 p0 (List.mem_cons_self _ _)
  have hcond : pairGt ((0 : Int), (0 : Int)) ((-1 : Int), (-1 : Int)) = true := by decide
  have hloop : chooseLoop (rec.speech_text.getD []) (none, -1, -1) (p0 :: bmrest)
      = (some p0.1, ((0 : Int), (0 : Int))) := by
    show (if pairGt (intScore (rec.speech_text.getD []) p0)
          ((-1 : Int), (-1 : Int)) = true
        then chooseLoop (rec.speech_text.getD [])
          (some p0.1, intScore (rec.speech_text.getD []) p0) bmrest
        else chooseLoop (rec.speech_text.getD []) (none, -1, -1) bmrest)
      = (some p0.1, ((0 : Int), (0 : Int)))
    rw [hz0p]
    rw [if_pos hcond]
    exact chooseLoop_zero _ bmrest _ (fun q hq => hz0 q (List.mem_cons_of_mem p0 hq))
  have hcbs : chooseByScore (p0 :: bmrest) (rec.speech_text.getD [])
      = (some p0.1, 0, "hard=0, soft=0".data) := by
    unfold chooseByScore
    rw [hloop]
    show (some p0.1, confOfInt ((0 : Int), (0 : Int)), scoreReason ((0 : Int), (0 : Int)))
      = (some p0.1, 0, "hard=0, soft=0".data)
    rw [show confOfInt ((0 : Int), (0 : Int)) = 0 from by decide,
      show scoreReason ((0 : Int), (0 : Int)) = "hard=0, soft=0".data from by decide]
  have hpk : p0.1 ≠ [] := hkeys p0 (List.mem_cons_self _ _)
  have htr : truthyS (some p0.1) = true := by simpa [truthyS] using hpk
  have ht1 : tier1 (p0 :: bmrest) (rec.speech_text.getD [])
      = (some p0.1, 0, "text-match(hard=0, soft=0)".data) := by
    unfold tier1
    rw [hcbs]
    show (if truthyS (some p0.1) = true then
        (some p0.1, (0 : ℚ), "text-match(".data ++ "hard=0, soft=0".data ++ ")".data)
      else (none, 0, [])) = _
    rw [if_pos htr,
      show "text-match(".data ++ "hard=0, soft=0".data ++ ")".data
        = "text-match(hard=0, soft=0)".data from by decide]
  have ht2 : tier2 (p0 :: bmrest) (rec.speech_text.getD []) (candidatesOf (p0 :: bmrest) rec)
      ((some p0.1, 0, "text-match(hard=0, soft=0)".data) : Option Str × ℚ × Str)
      = (some p0.1, 0, "text-match(hard=0, soft=0)".data) := by
    rw [hcand]
    simp [tier2]
  have hres : resolvePick (p0 :: bmrest) st rec
      = (some p0.1, 0, "text-match(hard=0, soft=0)".data) := by
    show tier4 st rec (tier3 st (tier2 (p0 :: bmrest) (rec.speech_text.getD [])
      (candidatesOf (p0 :: bmrest) rec) (tier1 (p0 :: bmrest) (rec.speech_text.getD []))))
      = _
    rw [ht1, ht2, tier3_skip st htr, tier4_skip st rec htr]
  show (⟨rec, (resolvePick (p0 :: bmrest) st rec).1,
    round2 (resolvePick (p0 :: bmrest) st rec).2.1,
    (resolvePick (p0 :: bmrest) st rec).2.2⟩ : Labeled) = _
  rw [hres]
  rfl

/-- C4 (amended): with a non-empty registry (non-empty canonical titles)
every utterance receives a non-null `assigned_bill` and a `text-match` or
`bills-field-candidate` reason — the agenda-flow, speaker-history and
no-match outcomes are unreachable; and an utterance all of whose scores are
`(0, 0)` with no known field candidate receives the first registry bill with
confidence 0.0 and reason `text-match(hard=0, soft=0)`. -/
theorem C4_amended_always_assigned (bm : BillMap) (hne : bm ≠ [])
    (hkeys : ∀ p ∈ bm, p.1 ≠ ([] : Str)) :
    (∀ speeches, ∀ lab ∈ assign_bills_to_speeches speeches bm,
      lab.bill_assigned ≠ none ∧
      lab.bill_reason ≠ "agenda-flow".data ∧
      lab.bill_reason ≠ "speaker-history".data ∧
      lab.bill_reason ≠ "no-match".data) ∧
    (∀ st rec,
      (∀ p ∈ bm, score_text_for_bill (rec.speech_text.getD []) p.2 = (0, 0)) →
      candidatesOf bm rec = [] →
      ∀ p0 bmrest, bm = p0 :: bmrest →
        (assignStep bm st rec).2.bill_assigned = some p0.1 ∧
        (assignStep bm st rec).2.bill_confidence = 0 ∧
        (assignStep bm st rec).2.bill_reason = "text-match(hard=0, soft=0)".data) := by
  constructor
  · intro speeches lab hmem
    refine assignGo_forall bm
      (fun lab => lab.bill_assigned ≠ none ∧ lab.bill_reason ≠ "agenda-flow".data ∧
        lab.bill_reason ≠ "speaker-history".data ∧ lab.bill_reason ≠ "no-match".data)
      ?_ speeches ⟨none, []⟩ lab hmem
    intro st rec
    obtain ⟨b, hb, hbne, hform⟩ := resolvePick_shape bm hne hkeys st rec
    have hassigned : (assignStep bm st rec).2.bill_assigned = (resolvePick bm st rec).1 := rfl
    have hreason : (assignStep bm st rec).2.bill_reason = (resolvePick bm st rec).2.2 := rfl
    have hnes : (resolvePick bm st rec).2.2 ≠ "agenda-flow".data ∧
        (resolvePick bm st rec).2.2 ≠ "speaker-history".data ∧
        (resolvePick bm st rec).2.2 ≠ "no-match".data := by
      rcases hform with ⟨t, ht⟩ | ⟨t, ht⟩ <;> rw [ht] <;>
        exact ⟨ne_of_first_char rfl (by decide), ne_of_first_char rfl (by decide),
          ne_of_first_char rfl (by decide)⟩
    refine ⟨?_, ?_, ?_, ?_⟩
    · rw [hassigned, hb]; simp
    · rw [hreason]; exact hnes.1
    · rw [hreason]; exact hnes.2.1
    · rw [hreason]; exact hnes.2.2
  · intro st rec hz hc p0 bmrest hbm
    have h := assignStep_all_zero bm p0 bmrest hbm hkeys st rec hz hc
    rw [h]
    exact ⟨rfl, rfl, rfl⟩

/-- C1 (amended): first utterance, all-zero scores, no known candidates:
with an empty registry the output is `(null, 0.0, "")` — reason the empty
string, not `"no-match"` — and with a non-empty registry the first registry
bill is assigned with confidence 0.0 and reason `text-match(hard=0, soft=0)`. -/
theorem C1_amended_no_match (bm : BillMap) (rec : Speech) (rest : List Speech)
    (hkeys : ∀ p ∈ bm, p.1 ≠ ([] : Str))
    (hzero : ∀ p ∈ bm, score_text_for_bill (rec.speech_text.getD []) p.2 = (0, 0))
    (hcand : candidatesOf bm rec = []) :
    (bm = [] →
      (assign_bills_to_speeches (rec :: rest) bm).head? = some ⟨rec, none, 0, []⟩) ∧
    (∀ p0 bmrest, bm = p0 :: bmrest →
      (assign_bills_to_speeches (rec :: rest) bm).head?
        = some ⟨rec, some p0.1, 0, "text-match(hard=0, soft=0)".data⟩) := by
  constructor
  · intro h
    subst h
    have hhead : (assign_bills_to_speeches (rec :: rest) ([] : BillMap)).head?
        = some (assignStep [] ⟨none, []⟩ rec).2 := rfl
    rw [hhead, assignStep_empty]
  · intro p0 bmrest hbm
    have hhead : (assign_bills_to_speeches (rec :: rest) bm).head?
        = some (assignStep bm ⟨none, []⟩ rec).2 := rfl
    rw [hhead, assignStep_all_zero bm p0 bmrest hbm hkeys ⟨none, []⟩ rec hzero hcand]

/-- C1 witness: concrete all-zero first utterance against the one-bill
registry and against the empty registry. -/
theorem C1_amended_no_match_witness :
    (assign_bills_to_speeches [⟨none, none, none⟩]
        (collect_bills_and_keywords [⟨none, some "가나다라".data, none⟩])).head?
      = some ⟨⟨none, none, none⟩, some "가나다라".data, 0, "text-match(hard=0, soft=0)".data⟩ ∧
    (assign_bills_to_speeches [⟨none, none, none⟩] []).head?
      = some ⟨⟨none, none, none⟩, none, 0, []⟩ := by
  constructor
  · have h := (C1_amended_no_match
        (collect_bills_and_keywords [⟨none, some "가나다라".data, none⟩])
        ⟨none, none, none⟩ [] (by decide) (by decide) (by decide)).2
        ((collect_bills_and_keywords [⟨none, some "가나다라".data, none⟩]).headD
          ([], ⟨[], [], []⟩))
        (collect_bills_and_keywords [⟨none, some "가나다라".data, none⟩]).tail
        (by decide)
    rw [h]
    decide
  · exact (C1_amended_no_match [] ⟨none, none, none⟩ [] (by decide) (by decide)
      (by decide)).1 rfl

/-- C3 witness: the head of a concrete run never carries reason
`agenda-flow`. -/
theorem C3_amended_agenda_flow_dead_witness :
    ((assign_bills_to_speeches [⟨none, some "가나다라".data, none⟩]
        (collect_bills_and_keywords [⟨none, some "가나다라".data, none⟩])).headD
      ⟨⟨none, none, none⟩, none, 0, []⟩).bill_reason ≠ "agenda-flow".data :=
  C3_amended_agenda_flow_dead
    (collect_bills_and_keywords [⟨none, some "가나다라".data, none⟩]) (by decide)
    [⟨none, some "가나다라".data, none⟩] _ (by decide)

/-- C4 witness: the all-zero, no-candidate step against the one-bill
registry assigns the first registry bill with confidence 0. -/
theorem C4_amended_always_assigned_witness :
    (assignStep (collect_bills_and_keywords [⟨none, some "가나다라".data, none⟩])
        ⟨none, []⟩ ⟨none, none, none⟩).2.bill_assigned = some "가나다라".data ∧
    (assignStep (collect_bills_and_keywords [⟨none, some "가나다라".data, none⟩])
        ⟨none, []⟩ ⟨none, none, none⟩).2.bill_confidence = 0 := by
  have h := (C4_amended_always_assigned
      (collect_bills_and_keywords [⟨none, some "가나다라".data, none⟩])
      (by decide) (by decide)).2 ⟨none, []⟩ ⟨none, none, none⟩ (by decide) (by decide)
      ((collect_bills_and_keywords [⟨none, some "가나다라".data, none⟩]).headD
        ([], ⟨[], [], []⟩))
      (collect_bills_and_keywords [⟨none, some "가나다라".data, none⟩]).tail
      (by decide)
  refine ⟨?_, h.2.1⟩
  rw [h.1]
  decide

/-! ### Fixed points of the normaliser (claim C5) -/

theorem dropTrailWS_sublist : ∀ l : Str, (dropTrailWS l).Sublist l := by
  intro l
  induction l with
  | nil => simp [dropTrailWS]
  | cons c rest ih =>
    show (let r := dropTrailWS rest; if r = [] && pySpace c then [] else c :: r).Sublist (c :: rest)
    by_cases h : dropTrailWS rest = [] && pySpace c
    · simp only [h, if_pos]
      exact List.nil_sublist _
    · simp only [h, if_neg, Bool.not_eq_true]
      exact List.Sublist.cons₂ c ih

theorem mem_stripWS {c : Char} {l : Str} (h : c ∈ stripWS l) : c ∈ l := by
  unfold stripWS at h
  exact (List.dropWhile_sublist pySpace (l := l)).mem ((dropTrailWS_sublist _).mem h)

theorem mem_collapseGo {c : Char} : ∀ (b : Bool) (s : Str), c ∈ collapseGo b s →
    c = ' ' ∨ c ∈ s := by
  intro b s
  induction s generalizing b with
  | nil => intro h; simp [collapseGo] at h
  | cons d rest ih =>
    intro h
    unfold collapseGo at h
    by_cases hd : pySpace d
    · rw [if_pos hd] at h
      by_cases hb : b
      · rw [if_pos hb] at h
        rcases ih true h with h1 | h1
        · exact Or.inl h1
        · exact Or.inr (List.mem_cons_of_mem d h1)
      · rw [if_neg hb] at h
        rcases List.mem_cons.mp h with h1 | h1
        · exact Or.inl h1
        · rcases ih true h1 with h2 | h2
          · exact Or.inl h2
          · exact Or.inr (List.mem_cons_of_mem d h2)
    · rw [if_neg hd] at h
      rcases List.mem_cons.mp h with h1 | h1
      · exact Or.inr (h1 ▸ List.mem_cons_self d rest)
      · rcases ih false h1 with h2 | h2
        · exact Or.inl h2
        · exact Or.inr (List.mem_cons_of_mem d h2)

/-- Every whitespace character of a collapsed string is a plain space. -/
theorem collapseGo_space_is_blank {c : Char} : ∀ (b : Bool) (s : Str), c ∈ collapseGo b s →
    pySpace c = true → c = ' ' := by
  intro b s
  induction s generalizing b with
  | nil => intro h; simp [collapseGo] at h
  | cons d rest ih =>
    intro h hws
    unfold collapseGo at h
    by_cases hd : pySpace d
    · rw [if_pos hd] at h
      by_cases hb : b
      · rw [if_pos hb] at h
        exact ih true h hws
      · rw [if_neg hb] at h
        rcases List.mem_cons.mp h with h1 | h1
        · exact h1
        · exact ih true h1 hws
    · rw [if_neg hd] at h
      rcases List.mem_cons.mp h with h1 | h1
      · rw [h1] at hws
        exact absurd hws (by simpa using hd)
      · exact ih false h1 hws

theorem clean_spaces_space_is_blank {c : Char} {s : Str} (h : c ∈ clean_spaces s)
    (hws : pySpace c = true) : c = ' ' :=
  collapseGo_space_is_blank false s (mem_stripWS h) hws

theorem no_newline_clean_spaces {s : Str} : Char.ofNat 10 ∉ clean_spaces s := by
  intro h
  have := clean_spaces_space_is_blank h (by decide)
  exact absurd this (by decide)

theorem nlToSpace_id {l : Str} (h : Char.ofNat 10 ∉ l) : nlToSpace l = l := by
  unfold nlToSpace
  induction l with
  | nil => rfl
  | cons c rest ih =>
    simp only [List.map_cons]
    have hc : ¬ c = Char.ofNat 10 := fun he => h (he ▸ List.mem_cons_self c rest)
    rw [if_neg (by simpa using hc)]
    rw [ih (fun hm => h (List.mem_cons_of_mem c hm))]

theorem dangGo_no_dangle {c : Char} : ∀ (b : Bool) (s : Str), c ∈ dangGo b s →
    isDangle c = false := by
  intro b s
  induction s generalizing b with
  | nil => intro h; simp [dangGo] at h
  | cons d rest ih =>
    intro h
    unfold dangGo at h
    by_cases hd : isDangle d
    · rw [if_pos hd] at h
      by_cases hb : b
      · rw [if_pos hb] at h
        exact ih true h
      · rw [if_neg hb] at h
        rcases List.mem_cons.mp h with h1 | h1
        · rw [h1]; decide
        · exact ih true h1
    · rw [if_neg hd] at h
      rcases List.mem_cons.mp h with h1 | h1
      · rw [h1]; simpa using hd
      · exact ih false h1

theorem dangGo_id : ∀ (b : Bool) (l : Str), (∀ c ∈ l, isDangle c = false) →
    dangGo b l = l := by
  intro b l
  induction l generalizing b with
  | nil => intro _; rfl
  | cons c rest ih =>
    intro h
    have hc : isDangle c = false := h c (List.mem_cons_self c rest)
    unfold dangGo
    rw [if_neg (by simp [hc])]
    rw [ih false (fun d hd => h d (List.mem_cons_of_mem c hd))]

theorem mem_replGo {c : Char} (pat : Str) : ∀ (f : Nat) (s : Str), c ∈ replGo pat f s → c ∈ s := by
  intro f
  induction f with
  | zero => intro s h; exact h
  | succ f ih =>
    intro s h
    cases s with
    | nil => simp [replGo] at h
    | cons d rest =>
      unfold replGo at h
      by_cases hm : leadEq pat (d :: rest) = true
      · rw [if_pos hm] at h
        exact List.drop_subset _ _ (ih _ h)
      · rw [if_neg hm] at h
        rcases List.mem_cons.mp h with h1 | h1
        · exact h1 ▸ List.mem_cons_self d rest
        · exact List.mem_cons_of_mem d (ih _ h1)

theorem mem_replaceAll {c : Char} {pat s : Str} (h : c ∈ replaceAll pat s) : c ∈ s := by
  unfold replaceAll at h
  by_cases hp : pat = []
  · rwa [if_pos hp] at h
  · rw [if_neg hp] at h
    exact mem_replGo pat s.length s h

theorem mem_stopFold {c : Char} : ∀ (phrases : List Str) (s : Str),
    c ∈ phrases.foldl (fun acc sp => replaceAll sp acc) s → c ∈ s := by
  intro phrases
  induction phrases with
  | nil => intro s h; exact h
  | cons sp rest ih =>
    intro s h
    simp only [List.foldl_cons] at h
    exact mem_replaceAll (ih (replaceAll sp s) h)

theorem mem_stopStrip {c : Char} {s : Str} (h : c ∈ stopStrip s) : c ∈ s :=
  mem_stopFold STOP_PHRASES s h

theorem stopStrip_id {s : Str} (h : ∀ sp ∈ STOP_PHRASES, replaceAll sp s = s) :
    stopStrip s = s := by
  unfold stopStrip
  revert h
  generalize STOP_PHRASES = phrases
  induction phrases with
  | nil => intro _; rfl
  | cons sp rest ih =>
    intro h
    simp only [List.foldl_cons]
    rw [h sp (List.mem_cons_self sp rest)]
    exact ih (fun q hq => h q (List.mem_cons_of_mem sp hq))

/-- The adjacency invariant of collapsed strings: a space is never followed
by another whitespace character. -/
theorem collapseGo_true_head : ∀ (s : Str) (c : Char),
    (collapseGo true s).head? = some c → pySpace c = false := by
  intro s
  induction s with
  | nil => intro c h; simp [collapseGo] at h
  | cons d rest ih =>
    intro c h
    unfold collapseGo at h
    by_cases hd : pySpace d
    · rw [if_pos hd, if_pos rfl] at h
      exact ih c h
    · rw [if_neg hd] at h
      simp only [List.head?_cons, Option.some.injEq] at h
      rw [← h]
      simpa using hd

theorem chain_collapseGo : ∀ (b : Bool) (s : Str),
    List.Chain' (fun a d => a = ' ' → pySpace d = false) (collapseGo b s) := by
  intro b s
  induction s generalizing b with
  | nil => simp [collapseGo]
  | cons d rest ih =>
    unfold collapseGo
    by_cases hd : pySpace d
    · rw [if_pos hd]
      by_cases hb : b
      · rw [if_pos hb]; exact ih true
      · rw [if_neg hb]
        rw [List.chain'_cons']
        refine ⟨?_, ih true⟩
        intro e he _
        exact collapseGo_true_head rest e he
    · rw [if_neg hd]
      rw [List.chain'_cons']
      refine ⟨?_, ih false⟩
      intro e he
      intro hsp
      exact absurd (hsp ▸ (by decide : pySpace ' ' = true)) (by simp [hsp] at hd ⊢; exact hd)

theorem dropTrailWS_append : ∀ l : Str, ∃ suf, l = dropTrailWS l ++ suf := by
  intro l
  induction l with
  | nil => exact ⟨[], rfl⟩
  | cons c rest ih =>
    obtain ⟨suf, hsuf⟩ := ih
    show ∃ s2, c :: rest = (let r := dropTrailWS rest; if r = [] && pySpace c then [] else c :: r) ++ s2
    by_cases h : dropTrailWS rest = [] && pySpace c
    · refine ⟨c :: rest, ?_⟩
      simp only [h, if_pos]
      rfl
    · refine ⟨suf, ?_⟩
      simp only [h, if_neg, Bool.not_eq_true]
      show c :: rest = c :: (dropTrailWS rest ++ suf)
      rw [← hsuf]

theorem chain_stripWS {R : Char → Char → Prop} {l : Str} (h : List.Chain' R l) :
    List.Chain' R (stripWS l) := by
  unfold stripWS
  have h1 : List.Chain' R (l.dropWhile pySpace) := by
    have := List.takeWhile_append_dropWhile (p := pySpace) (l := l)
    rw [← this] at h
    exact (List.chain'_append.mp h).2.1
  obtain ⟨suf, hsuf⟩ := dropTrailWS_append (l.dropWhile pySpace)
  rw [hsuf] at h1
  exact (List.chain'_append.mp h1).1

theorem head_dropWhile_not {l : Str} {c : Char}
    (h : (l.dropWhile pySpace).head? = some c) : pySpace c = false := by
  induction l with
  | nil => simp at h
  | cons d rest ih =>
    rw [List.dropWhile_cons] at h
    by_cases hd : pySpace d
    · rw [if_pos (by simpa using hd)] at h
      exact ih h
    · rw [if_neg (by simpa using hd)] at h
      simp only [List.head?_cons, Option.some.injEq] at h
      rw [← h]
      simpa using hd

theorem dropWhile_id_of_head {l : Str}
    (h : ∀ c, l.head? = some c → pySpace c = false) : l.dropWhile pySpace = l := by
  cases l with
  | nil => rfl
  | cons c rest =>
    rw [List.dropWhile_cons, if_neg]
    simp only [List.head?_cons] at h
    simp [h c rfl]

theorem dropTrailWS_idem : ∀ l : Str, dropTrailWS (dropTrailWS l) = dropTrailWS l := by
  intro l
  induction l with
  | nil => rfl
  | cons c rest ih =>
    show dropTrailWS (let r := dropTrailWS rest; if r = [] && pySpace c then [] else c :: r)
      = (let r := dropTrailWS rest; if r = [] && pySpace c then [] else c :: r)
    by_cases h : dropTrailWS rest = [] && pySpace c
    · simp only [h, if_pos]
      rfl
    · simp only [h, if_neg, Bool.not_eq_true]
      show (let r := dropTrailWS (dropTrailWS rest);
        if r = [] && pySpace c then [] else c :: r) = c :: dropTrailWS rest
      rw [ih]
      simp only [h, if_neg, Bool.not_eq_true]

theorem collapseGo_true_of_head : ∀ l : Str,
    (∀ c, l.head? = some c → pySpace c = false) → collapseGo true l = collapseGo false l := by
  intro l h
  cases l with
  | nil => rfl
  | cons c rest =>
    have hc : pySpace c = false := h c rfl
    unfold collapseGo
    rw [if_neg (by simp [hc]), if_neg (by simp [hc])]

theorem collapseGo_id : ∀ l : Str,
    (∀ c ∈ l, pySpace c = true → c = ' ') →
    List.Chain' (fun a d => a = ' ' → pySpace d = false) l →
    collapseGo false l = l := by
  intro l
  induction l with
  | nil => intro _ _; rfl
  | cons c rest ih =>
    intro hsp hch
    rw [List.chain'_cons'] at hch
    unfold collapseGo
    by_cases hc : pySpace c
    · have hcb : c = ' ' := hsp c (List.mem_cons_self c rest) hc
      rw [if_pos hc]
      have hrest : collapseGo true rest = rest := by
        rw [collapseGo_true_of_head rest ?_]
        · exact ih (fun d hd => hsp d (List.mem_cons_of_mem c hd)) hch.2
        · intro d hd
          exact hch.1 d hd hcb
      rw [hrest, hcb]
      rfl
    · rw [if_neg hc]
      rw [ih (fun d hd => hsp d (List.mem_cons_of_mem c hd)) hch.2]

theorem clean_spaces_idem (s : Str) : clean_spaces (clean_spaces s) = clean_spaces s := by
  have hsp : ∀ c ∈ clean_spaces s, pySpace c = true → c = ' ' :=
    fun c hc hws => clean_spaces_space_is_blank hc hws
  have hch : List.Chain' (fun a d => a = ' ' → pySpace d = false) (clean_spaces s) :=
    chain_stripWS (chain_collapseGo false s)
  have hC : collapseGo false (clean_spaces s) = clean_spaces s := collapseGo_id _ hsp hch
  have hhead : ∀ c, (clean_spaces s).head? = some c → pySpace c = false := by
    intro c hc
    unfold clean_spaces stripWS at hc
    obtain ⟨suf, hsuf⟩ := dropTrailWS_append ((collapseGo false s).dropWhile pySpace)
    have : ((collapseGo false s).dropWhile pySpace).head? = some c := by
      rcases hd : dropTrailWS ((collapseGo false s).dropWhile pySpace) with _ | ⟨d, t⟩
      · rw [hd] at hc; simp at hc
      · rw [hd] at hc
        simp only [List.head?_cons, Option.some.injEq] at hc
        rw [hsuf, hd, ← hc]
        rfl
    exact head_dropWhile_not this
  have hW : (clean_spaces s).dropWhile pySpace = clean_spaces s := dropWhile_id_of_head hhead
  have hT : dropTrailWS (clean_spaces s) = clean_spaces s := by
    show dropTrailWS (dropTrailWS ((collapseGo false s).dropWhile pySpace)) = _
    exact dropTrailWS_idem _
  show stripWS (collapseGo false (clean_spaces s)) = clean_spaces s
  rw [hC]
  unfold stripWS
  rw [hW, hT]

/-- C5 (amended): `normalize_bill_title` is idempotent on every NFKC-fixed
string (characters from the `nfkcStable` whitelist — on that domain the NFKC
step of both passes is the identity: the normaliser only removes characters
or inserts plain spaces, so the intermediate strings stay in the whitelist)
whose normalised form is a fixed point of the enumeration-prefix strip, of
the parenthetical removal, and of each stop-phrase removal.  The
counterexample shows the fixed-point hypotheses cannot be dropped (a strip
step can expose new strippable material); outside the `nfkcStable` domain
NFKC itself can recompose conjoining jamo on the second pass, so the
statement is confined to the domain where the identity model of NFKC is
exact. -/
theorem C5_amended_idempotent_on_fixed_points (s : Str)
    (hstable : ∀ c ∈ s, nfkcStable c = true)
    (h1 : stripEnumHead (normalize_bill_title s) = normalize_bill_title s)
    (h2 : dropParens (normalize_bill_title s) = normalize_bill_title s)
    (h3 : ∀ sp ∈ STOP_PHRASES, replaceAll sp (normalize_bill_title s) = normalize_bill_title s) :
    normalize_bill_title (normalize_bill_title s) = normalize_bill_title s := by
  have hdef : ∀ t : Str, t ≠ [] → normalize_bill_title t
      = clean_spaces (stopStrip (clean_spaces (danglingToSpace (dropParens
        (stripEnumHead (nlToSpace (normalize_text t))))))) := by
    intro t ht
    unfold normalize_bill_title
    rw [if_neg ht]
  by_cases hs : s = []
  · subst hs; rfl
  · have hyeq := hdef s hs
    by_cases hy0 : normalize_bill_title s = []
    · rw [hy0]; rfl
    · have hnn : Char.ofNat 10 ∉ normalize_bill_title s := by
        rw [hyeq]; exact no_newline_clean_spaces
      have hnd : ∀ c ∈ normalize_bill_title s, isDangle c = false := by
        intro c hc
        rw [hyeq] at hc
        rcases mem_collapseGo false _ (mem_stripWS hc) with h | h
        · rw [h]; decide
        · rcases mem_collapseGo false _ (mem_stripWS (mem_stopStrip h)) with h' | h'
          · rw [h']; decide
          · exact dangGo_no_dangle false _ h'
      have hclean : clean_spaces (normalize_bill_title s) = normalize_bill_title s := by
        rw [hyeq]
        exact clean_spaces_idem _
      have hdang : danglingToSpace (normalize_bill_title s) = normalize_bill_title s :=
        dangGo_id false _ hnd
      rw [hdef (normalize_bill_title s) hy0,
        show normalize_text (normalize_bill_title s) = normalize_bill_title s from rfl,
        nlToSpace_id hnn, h1, h2, hdang, hclean, stopStrip_id h3, hclean]

/-- C5 witness: the hypotheses hold for a real bill title — NFKC-stable
characters, and its normalised form `"교정공제회법"` is a fixed point of
every strip step. -/
theorem C5_amended_idempotent_witness :
    (∀ c ∈ "교정공제회법 일부개정법률안".data, nfkcStable c = true) ∧
    stripEnumHead (normalize_bill_title "교정공제회법 일부개정법률안".data)
        = normalize_bill_title "교정공제회법 일부개정법률안".data ∧
    normalize_bill_title (normalize_bill_title "교정공제회법 일부개정법률안".data)
      = normalize_bill_title "교정공제회법 일부개정법률안".data :=
  ⟨by decide, by decide,
   C5_amended_idempotent_on_fixed_points "교정공제회법 일부개정법률안".data
     (by decide) (by decide) (by decide) (by decide)⟩

/-! ### Keyword ordering (claim C10) -/

theorem uniqAux_spec : ∀ (l seen : List Str),
    (uniqAux seen l).Nodup ∧ (∀ x, x ∈ uniqAux seen l ↔ x ∈ l ∧ x ∉ seen) := by
  intro l
  induction l with
  | nil =>
    intro seen
    exact ⟨List.nodup_nil, by simp [uniqAux]⟩
  | cons t rest ih =>
    intro seen
    by_cases ht : t ∈ seen
    · unfold uniqAux
      rw [if_pos ht]
      obtain ⟨h1, h2⟩ := ih seen
      refine ⟨h1, ?_⟩
      intro x
      rw [h2]
      constructor
      · rintro ⟨hx, hs⟩
        exact ⟨List.mem_cons_of_mem _ hx, hs⟩
      · rintro ⟨hx, hs⟩
        rcases List.mem_cons.mp hx with rfl | hx
        · exact absurd ht hs
        · exact ⟨hx, hs⟩
    · unfold uniqAux
      rw [if_neg ht]
      obtain ⟨h1, h2⟩ := ih (seen ++ [t])
      constructor
      · rw [List.nodup_cons]
        refine ⟨?_, h1⟩
        intro hmem
        exact ((h2 t).mp hmem).2 (by simp)
      · intro x
        simp only [List.mem_cons]
        constructor
        · rintro (rfl | hx)
          · exact ⟨Or.inl rfl, ht⟩
          · have hx' := (h2 x).mp hx
            refine ⟨Or.inr hx'.1, fun hxs => hx'.2 (by simp [hxs])⟩
        · rintro ⟨rfl | hx, hs⟩
          · exact Or.inl rfl
          · by_cases hxt : x = t
            · exact Or.inl hxt
            · refine Or.inr ((h2 x).mpr ⟨hx, ?_⟩)
              intro hmm
              rcases List.mem_append.mp hmm with h | h
              · exact hs h
              · simp at h
                exact hxt h

theorem idxIn_cons_self (x : Str) (t : List Str) : idxIn (x :: t) x = 0 := by
  show (if x = x then 0 else idxIn t x + 1) = 0
  rw [if_pos rfl]

theorem idxIn_cons_ne (x : Str) (t : List Str) {a : Str} (h : x ≠ a) :
    idxIn (x :: t) a = idxIn t a + 1 := by
  show (if x = a then 0 else idxIn t a + 1) = idxIn t a + 1
  rw [if_neg h]

theorem pairwise_idxIn {l : List Str} (h : l.Nodup) :
    l.Pairwise (fun a b => idxIn l a < idxIn l b) := by
  induction l with
  | nil => exact List.Pairwise.nil
  | cons x t ih =>
    rw [List.nodup_cons] at h
    rw [List.pairwise_cons]
    constructor
    · intro b hb
      have hbx : x ≠ b := fun he => h.1 (he ▸ hb)
      rw [idxIn_cons_self, idxIn_cons_ne x t hbx]
      omega
    · have ht := ih h.2
      refine List.Pairwise.imp_of_mem ?_ ht
      intro a b ha hb hab
      have hxa : x ≠ a := fun he => h.1 (he ▸ ha)
      have hxb : x ≠ b := fun he => h.1 (he ▸ hb)
      rw [idxIn_cons_ne x t hxa, idxIn_cons_ne x t hxb]
      omega

theorem insByCount_perm {α : Type} (cnt : α → Nat) (x : α) :
    ∀ l : List α, (insByCount cnt x l).Perm (x :: l) := by
  intro l
  induction l with
  | nil => exact List.Perm.refl _
  | cons y ys ih =>
    unfold insByCount
    by_cases h : cnt y ≤ cnt x
    · rw [if_pos h]
    · rw [if_neg h]
      exact (ih.cons y).trans (List.Perm.swap x y ys)

theorem insByCount_pairwise {α : Type} (cnt idx : α → Nat) (x : α) :
    ∀ l : List α,
      l.Pairwise (fun a b => cnt b < cnt a ∨ (cnt a = cnt b ∧ idx a < idx b)) →
      (∀ y ∈ l, idx x < idx y) →
      (insByCount cnt x l).Pairwise
        (fun a b => cnt b < cnt a ∨ (cnt a = cnt b ∧ idx a < idx b)) := by
  intro l
  induction l with
  | nil =>
    intro _ _
    simp [insByCount]
  | cons y ys ih =>
    intro hpw hidx
    rw [List.pairwise_cons] at hpw
    unfold insByCount
    by_cases h : cnt y ≤ cnt x
    · rw [if_pos h]
      rw [List.pairwise_cons]
      constructor
      · intro z hz
        rcases List.mem_cons.mp hz with rfl | hz
        · rcases Nat.lt_or_ge (cnt z) (cnt x) with hlt | hge
          · exact Or.inl hlt
          · exact Or.inr ⟨by omega, hidx z (List.mem_cons_self _ _)⟩
        · have hyz := hpw.1 z hz
          have hyx : cnt z ≤ cnt y := by rcases hyz with h1 | h1 <;> omega
          rcases Nat.lt_or_ge (cnt z) (cnt x) with hlt | hge
          · exact Or.inl hlt
          · exact Or.inr ⟨by omega, hidx z (List.mem_cons_of_mem _ hz)⟩
      · exact List.pairwise_cons.mpr hpw
    · rw [if_neg h]
      rw [List.pairwise_cons]
      constructor
      · intro z hz
        have hz' : z ∈ x :: ys := (insByCount_perm cnt x ys).mem_iff.mp hz
        rcases List.mem_cons.mp hz' with rfl | hz'
        · exact Or.inl (by omega)
        · exact hpw.1 z hz'
      · exact ih hpw.2 (fun y hy => hidx y (List.mem_cons_of_mem _ hy))

theorem sortByCountDesc_perm {α : Type} (cnt : α → Nat) :
    ∀ l : List α, (sortByCountDesc cnt l).Perm l := by
  intro l
  induction l with
  | nil => exact List.Perm.refl _
  | cons x t ih =>
    show (insByCount cnt x (sortByCountDesc cnt t)).Perm (x :: t)
    exact (insByCount_perm cnt x _).trans (ih.cons x)

theorem sortByCountDesc_pairwise {α : Type} (cnt idx : α → Nat) :
    ∀ l : List α, l.Pairwise (fun a b => idx a < idx b) →
      (sortByCountDesc cnt l).Pairwise
        (fun a b => cnt b < cnt a ∨ (cnt a = cnt b ∧ idx a < idx b)) := by
  intro l
  induction l with
  | nil => intro _; simp [sortByCountDesc]
  | cons x t ih =>
    intro hpw
    rw [List.pairwise_cons] at hpw
    show (insByCount cnt x (sortByCountDesc cnt t)).Pairwise _
    refine insByCount_pairwise cnt idx x _ (ih hpw.2) ?_
    intro y hy
    exact hpw.1 y ((sortByCountDesc_perm cnt t).mem_iff.mp hy)

/-- C10 (amended): for every NFKC-fixed title (characters from the
`nfkcStable` whitelist, on which the NFKC step is the identity — outside it
NFKC can fold compatibility letters such as full-width Latin into the token
class before tokenising), `extract_keywords_from_bill` returns the `top_k`
most frequent kept tokens (runs of `[가-힣A-Za-z0-9]`, minus one-character
and stop tokens) in descending-frequency order, ties broken by
first-occurrence position: the result is a duplicate-free selection from
the distinct kept tokens of the right length, pairwise ordered by
(count desc, first occurrence asc), and every distinct kept token left out
is ranked after every returned token in that order. -/
theorem C10_amended_keywords (title : Str) (k : Nat)
    (hstable : ∀ c ∈ title, nfkcStable c = true) :
    (extract_keywords_from_bill title k).length
        = min k (uniqFirst (keptTokens title)).length ∧
    (∀ t ∈ extract_keywords_from_bill title k, t ∈ uniqFirst (keptTokens title)) ∧
    (extract_keywords_from_bill title k).Nodup ∧
    List.Pairwise
      (fun a b => countOf (keptTokens title) b < countOf (keptTokens title) a ∨
        (countOf (keptTokens title) a = countOf (keptTokens title) b ∧
          idxIn (uniqFirst (keptTokens title)) a < idxIn (uniqFirst (keptTokens title)) b))
      (extract_keywords_from_bill title k) ∧
    (∀ t ∈ uniqFirst (keptTokens title), t ∉ extract_keywords_from_bill title k →
      ∀ s ∈ extract_keywords_from_bill title k,
        countOf (keptTokens title) t < countOf (keptTokens title) s ∨
        (countOf (keptTokens title) s = countOf (keptTokens title) t ∧
          idxIn (uniqFirst (keptTokens title)) s < idxIn (uniqFirst (keptTokens title)) t)) := by
  have hext : extract_keywords_from_bill title k
      = (sortByCountDesc (countOf (keptTokens title)) (uniqFirst (keptTokens title))).take k := rfl
  have hund : (uniqFirst (keptTokens title)).Nodup := (uniqAux_spec (keptTokens title) []).1
  have hperm := sortByCountDesc_perm (countOf (keptTokens title)) (uniqFirst (keptTokens title))
  have hpw := sortByCountDesc_pairwise (countOf (keptTokens title))
    (idxIn (uniqFirst (keptTokens title))) (uniqFirst (keptTokens title)) (pairwise_idxIn hund)
  refine ⟨?_, ?_, ?_, ?_, ?_⟩
  · rw [hext, List.length_take, hperm.length_eq]
  · intro t ht
    rw [hext] at ht
    exact hperm.mem_iff.mp ((List.take_sublist k _).mem ht)
  · rw [hext]
    exact List.Nodup.sublist (List.take_sublist k _) (hperm.nodup_iff.mpr hund)
  · rw [hext]
    exact List.Pairwise.sublist (List.take_sublist k _) hpw
  · intro t htu htr s hs
    rw [hext] at htr hs
    have htr' : t ∈ sortByCountDesc (countOf (keptTokens title)) (uniqFirst (keptTokens title)) :=
      hperm.mem_iff.mpr htu
    have hsplit := (List.take_append_drop k
      (sortByCountDesc (countOf (keptTokens title)) (uniqFirst (keptTokens title)))).symm
    have htd : t ∈ (sortByCountDesc (countOf (keptTokens title))
        (uniqFirst (keptTokens title))).drop k := by
      rw [hsplit] at htr'
      rcases List.mem_append.mp htr' with h | h
      · exact absurd h htr
      · exact h
    have hpw2 := hpw
    rw [hsplit] at hpw2
    exact (List.pairwise_append.mp hpw2).2.2 s hs t htd

/-- C10 witness: the title `"자연재해 대책 2024 자연재해"` is all
NFKC-stable characters, the stop token `대책` is dropped, and with
`top_k = 1` the returned list has length `min 1 2` while the left-out token
`"2024"` ranks strictly below the returned token `"자연재해"`. -/
theorem C10_amended_keywords_witness :
    (extract_keywords_from_bill "자연재해 대책 2024 자연재해".data 1).length
        = min 1 (uniqFirst (keptTokens "자연재해 대책 2024 자연재해".data)).length ∧
    (countOf (keptTokens "자연재해 대책 2024 자연재해".data) "2024".data
        < countOf (keptTokens "자연재해 대책 2024 자연재해".data) "자연재해".data ∨
      (countOf (keptTokens "자연재해 대책 2024 자연재해".data) "자연재해".data
          = countOf (keptTokens "자연재해 대책 2024 자연재해".data) "2024".data ∧
        idxIn (uniqFirst (keptTokens "자연재해 대책 2024 자연재해".data)) "자연재해".data
          < idxIn (uniqFirst (keptTokens "자연재해 대책 2024 자연재해".data)) "2024".data)) :=
  ⟨(C10_amended_keywords "자연재해 대책 2024 자연재해".data 1 (by decide)).1,
   (C10_amended_keywords "자연재해 대책 2024 자연재해".data 1 (by decide)).2.2.2.2
     "2024".data (by decide) (by decide) "자연재해".data (by decide)⟩
